import Mathlib

/-!
H8S peripheral models: timer unit and serial channel.

A shallow embedding of `src/h8sdevices.hpp` (classes `Timers` and `Serial`).

Conventions of the embedding.

* Unsigned machine integers (`uint8_t`, `uint16_t`, `uint32_t`, `unsigned long long`) are
  natural numbers; every place where the source truncates carries an explicit `%`.
* `int8_t` register cells (`space`, `data`, `scr`, `txr`, `rdr`, `ssr`) are held as the byte
  with the same two's-complement bit pattern (`-128` is `0x80`, `-1` is `0xFF`).  The source
  only stores a `uint8_t` into them, returns them as `uint8_t`, or tests them against a mask
  below 256, all of which depend on these eight bits only.
* `int` values (`txrtimer`, `clocktime`, `irqoff`, interrupt vectors of the serial channel)
  are integers; the conversion `(int)` from `unsigned long long` is `toInt32`.
* The collaborator `state` is external: the cycle counter it exposes is passed to `tick` as
  an argument, and the calls `state->interrupt(n)` made during an operation are returned as
  the list of the vectors `n`, in call order.  Calls of `outputCallback` are returned the
  same way.  The `printf` logging is not part of the model.
* Methods that can touch the object return the new object next to their result.
-/

namespace H8S

/-! ## Timer unit: data model -/

/-- One timer channel (`class channel`): 16-bit `tcnt`, `gra`, `grb`; 8-bit `tcr`, `tsr`,
`tier`. -/
structure Channel where
  tcnt : Nat
  gra : Nat
  grb : Nat
  tcr : Nat
  tsr : Nat
  tier : Nat

/-- The default member initialisers of `class channel`. -/
def Channel.init : Channel :=
  { tcnt := 0, gra := 0xffff, grb := 0xffff, tcr := 128, tsr := 0xf8, tier := 0xf8 }

/-- Every field of a channel fits its C type. -/
def Channel.WF (c : Channel) : Prop :=
  c.tcnt < 65536 ∧ c.gra < 65536 ∧ c.grb < 65536 ∧ c.tcr < 256 ∧ c.tsr < 256 ∧ c.tier < 256

/-- The timer unit (`class Timers`): the cycle snapshot, the 64-byte scratch array, the four
global bytes and the five channels (indexed `0..4`). -/
structure Timers where
  lastCycles : Nat
  space : Nat → Nat
  tstr : Nat
  tsnc : Nat
  tmdr : Nat
  tfcr : Nat
  channels : Nat → Channel

/-- The state built by the constructor `Timers()` from the default member initialisers. -/
def Timers.init : Timers :=
  { lastCycles := 0, space := fun _ => 0, tstr := 0xc0, tsnc := 0xc0, tmdr := 0x80,
    tfcr := 0xc0, channels := fun _ => Channel.init }

/-- Every field of the timer unit fits its C type. -/
def Timers.WF (t : Timers) : Prop :=
  t.lastCycles < 2 ^ 64 ∧ (∀ k, k < 64 → t.space k < 256) ∧ t.tstr < 256 ∧ t.tsnc < 256 ∧
    t.tmdr < 256 ∧ t.tfcr < 256 ∧ ∀ i, i < 5 → (t.channels i).WF

/-! ## Timer unit: `tick` -/

/-- The body of the inner loop of `Timers::tick` (source lines 37-55) for channel `i`: one
sub-tick of channel `c`, with the interrupt vectors it raises. -/
def Timers.subTick (i : Nat) (c : Channel) : Channel × List Nat :=
  let nt : Nat := (c.tcnt + 1) % 65536
  let a : Nat × Nat × List Nat :=
    if c.tcnt = c.gra then
      (c.tsr ||| 1,
       if c.tcr &&& 0x60 = 0x20 then 0 else nt,
       if c.tier &&& 1 ≠ 0 then [24 + i * 4] else [])
    else (c.tsr, nt, [])
  let b : Nat × Nat × List Nat :=
    if c.tcnt = c.grb then
      (a.1 ||| 2,
       if c.tcr &&& 0x60 = 0x40 then 0 else a.2.1,
       a.2.2 ++ (if c.tier &&& 2 ≠ 0 then [25 + i * 4] else []))
    else a
  let d : Nat × List Nat :=
    if c.tcnt = 0 ∧ c.tier &&& 4 ≠ 0 then (b.1 ||| 4, b.2.2 ++ [26 + i * 4])
    else (b.1, b.2.2)
  ({ c with tsr := d.1, tcnt := b.2.1 }, d.2)

/-- The inner loop `for (j = 0; j < inc; j++)` of `Timers::tick`: `n` sub-ticks in a row. -/
def Timers.runChannel (i : Nat) : Nat → Channel → Channel × List Nat
  | 0, c => (c, [])
  | n + 1, c =>
    let r := Timers.subTick i c
    let r2 := Timers.runChannel i n r.1
    (r2.1, r.2 ++ r2.2)

/-- The elapsed sub-tick count `(unsigned int)((cycles >> shift) - (lastCycles >> shift))`:
a 64-bit unsigned subtraction truncated to 32 bits. -/
def Timers.elapsed (cycles lastCycles shift : Nat) : Nat :=
  (((cycles >>> shift) + 2 ^ 64 - (lastCycles >>> shift)) % 2 ^ 64) % 2 ^ 32

/-- The body of the outer loop of `Timers::tick` for channel index `i`. -/
def Timers.tickChannel (cycles : Nat) (t : Timers) (i : Nat) : Timers × List Nat :=
  if t.tstr &&& (1 <<< i) = 0 then (t, [])
  else if t.tmdr &&& (1 <<< i) ≠ 0 then (t, [])
  else
    let c := t.channels i
    if c.tcr &&& 4 ≠ 0 then (t, [])
    else
      let shift := c.tcr &&& 3
      let inc := Timers.elapsed cycles t.lastCycles shift
      let r := Timers.runChannel i inc c
      ({ t with channels := fun k => if k = i then r.1 else t.channels k }, r.2)

/-- The method `Timers::tick`, with `cycles` the value of `state->cycles`: channels 0 to 4
in order, then the snapshot. -/
def Timers.tick (t : Timers) (cycles : Nat) : Timers × List Nat :=
  let r := (List.range 5).foldl
    (fun (acc : Timers × List Nat) i =>
      let s := Timers.tickChannel cycles acc.1 i
      (s.1, acc.2 ++ s.2))
    (t, [])
  ({ r.1 with lastCycles := cycles }, r.2)

/-- The interrupts of the inner loop of `Timers::tick`, sub-tick by sub-tick: the `k`-th
element is the list of vectors raised by the `k`-th of `n` sub-ticks of channel `i`. -/
def Timers.runTrace (i : Nat) : Nat → Channel → List (List Nat)
  | 0, _ => []
  | n + 1, c => (Timers.subTick i c).2 :: Timers.runTrace i n (Timers.subTick i c).1

/-- The timer channel a vector number belongs to: `24 + 4i`, `25 + 4i` and `26 + 4i` are
the vectors of channel `i`. -/
def Timers.vectorChannel (v : Nat) : Nat := (v - 24) / 4

/-! ## Timer unit: register access -/

/-- The channel selection shared by `Timers::read` and `Timers::write` (source lines 72-77
and 109-114): the channel owning a window offset, if any, and the offset inside its block.
`none` stands for `channel == -1`, in which case the offset is unchanged. -/
def Timers.selectChannel (address : Nat) : Option Nat × Nat :=
  if 0x4 ≤ address ∧ address < 0xe then (some 0, address - 0x4)
  else if 0xe ≤ address ∧ address < 0x18 then (some 1, address - 0xe)
  else if 0x18 ≤ address ∧ address < 0x22 then (some 2, address - 0x18)
  else if 0x22 ≤ address ∧ address < 0x2c then (some 3, address - 0x22)
  else if 0x32 ≤ address ∧ address < 0x3c then (some 4, address - 0x32)
  else (none, address)

/-- The second `switch` of `Timers::read` (source lines 81-95): the byte of channel `c` at
block offset `a`. -/
def Timers.readChannel (c : Channel) (a : Nat) : Nat :=
  if a = 0 then c.tcr
  else if a = 1 then 0
  else if a = 2 then c.tier
  else if a = 3 then c.tsr
  else if a = 4 then (c.tcnt >>> 8) &&& 255
  else if a = 5 then c.tcnt &&& 255
  else if a = 6 then (c.gra >>> 8) &&& 255
  else if a = 7 then c.gra &&& 255
  else if a = 8 then (c.grb >>> 8) &&& 255
  else if a = 9 then c.grb &&& 255
  else 0

/-- The method `Timers::read`: the byte returned, and the object after the call. -/
def Timers.read (t : Timers) (address : Nat) : Nat × Timers :=
  if address < 0xffff60 ∨ address ≥ 0xffffa0 then (0, t)
  else
    let address := address - 0xffff60
    if address = 0 then (t.tstr, t)
    else if address = 1 then (t.tsnc, t)
    else if address = 2 then (t.tmdr, t)
    else if address = 3 then (t.tfcr, t)
    else
      match Timers.selectChannel address with
      | (none, a) => (t.space a, t)
      | (some ch, a) => (Timers.readChannel (t.channels ch) a, t)

/-- The second `switch` of `Timers::write` (source lines 118-131): channel `c` after the
byte `value` is stored at block offset `a`.  The 16-bit assignments truncate to 16 bits. -/
def Timers.writeChannel (c : Channel) (a value : Nat) : Channel :=
  if a = 0 then { c with tcr := value }
  else if a = 1 then c
  else if a = 2 then { c with tier := value }
  else if a = 3 then { c with tsr := value }
  else if a = 4 then { c with tcnt := ((c.tcnt &&& 255) ||| (value <<< 8)) % 65536 }
  else if a = 5 then { c with tcnt := ((c.tcnt &&& 0xff00) ||| (value &&& 0xff)) % 65536 }
  else if a = 6 then { c with gra := ((c.gra &&& 255) ||| (value <<< 8)) % 65536 }
  else if a = 7 then { c with gra := ((c.gra &&& 0xff00) ||| (value &&& 0xff)) % 65536 }
  else if a = 8 then { c with grb := ((c.grb &&& 255) ||| (value <<< 8)) % 65536 }
  else if a = 9 then { c with grb := ((c.grb &&& 0xff00) ||| (value &&& 0xff)) % 65536 }
  else c

/-- The method `Timers::write` (`value` is a `uint8_t`). -/
def Timers.write (t : Timers) (address value : Nat) : Timers :=
  if address < 0xffff60 ∨ address ≥ 0xffffa0 then t
  else
    let address := address - 0xffff60
    if address = 0 then { t with tstr := value }
    else if address = 1 then { t with tsnc := value }
    else if address = 2 then { t with tmdr := value }
    else if address = 3 then { t with tfcr := value }
    else
      match Timers.selectChannel address with
      | (none, a) => { t with space := fun k => if k = a then value else t.space k }
      | (some ch, a) =>
        { t with channels := fun k =>
            if k = ch then Timers.writeChannel (t.channels ch) a value else t.channels k }

/-- Window offset of the first byte of channel `i`'s ten-byte block. -/
def Timers.blockBase (i : Nat) : Nat :=
  if i = 0 then 0x04 else if i = 1 then 0x0e else if i = 2 then 0x18
  else if i = 3 then 0x22 else 0x32

/-- The `r`-th 16-bit register of a channel block: 0 is `tcnt` (block offsets 4, 5), 1 is
`gra` (offsets 6, 7), anything else is `grb` (offsets 8, 9). -/
def Channel.reg16 (c : Channel) (r : Nat) : Nat :=
  if r = 0 then c.tcnt else if r = 1 then c.gra else c.grb

/-! ## Serial channel: data model -/

/-- The conversion to `int` and the wrap of `int` arithmetic: the value in
`[-2^31, 2^31)` congruent to `x` modulo `2^32`. -/
def toInt32 (x : Int) : Int := (x + 2 ^ 31) % 2 ^ 32 - 2 ^ 31

/-- The serial channel (`class Serial`).  `tosend` is the inbound queue, front first. -/
structure Serial where
  clocktime : Int
  tosend : List Nat
  data : Nat → Nat
  scr : Nat
  txr : Nat
  rdr : Nat
  ssr : Nat
  lastcycles : Nat
  irqoff : Int
  txrtimer : Int

/-- The state built by the constructor `Serial(_irqoff, _clocktime, callback)`.  The array
`data` has no initialiser in the source, so its content is a parameter. -/
def Serial.init (irqoff clocktime : Int) (data : Nat → Nat) : Serial :=
  { clocktime := clocktime, tosend := [], data := data, scr := 0, txr := 0xff, rdr := 0,
    ssr := 0x80, lastcycles := 0, irqoff := irqoff, txrtimer := 0 }

/-! ## Serial channel: operations -/

/-- The method `Serial::read`: the byte returned, and the object after the call. -/
def Serial.read (s : Serial) (address : Nat) : Nat × Serial :=
  let address := address &&& 7
  if address = 2 then (s.scr, s)
  else if address = 3 then (s.txr, s)
  else if address = 4 then (s.ssr, s)
  else if address = 5 then (s.rdr, s)
  else (s.data address, s)

/-- The method `Serial::write` (`value` is a `uint8_t`): the object after the call and the
arguments of the calls of `outputCallback`, in order.  The test `value != -2` compares the
`uint8_t` argument, promoted to `int`, with the `int` constant `-2`. -/
def Serial.write (s : Serial) (address value : Nat) : Serial × List Nat :=
  let address := address &&& 7
  if address = 2 then
    let t1 : Int := if value &&& 32 ≠ 0 ∧ s.scr &&& 32 = 0 then 1 else s.txrtimer
    let t2 : Int := if value &&& 32 = 0 ∧ s.scr &&& 32 ≠ 0 then 0 else t1
    ({ s with txrtimer := t2, scr := value }, [])
  else if address = 3 then
    let out : List Nat := if (value : Int) ≠ -2 then [value] else []
    ({ s with txr := value, txrtimer := s.clocktime, ssr := s.ssr &&& 127 }, out)
  else if address = 4 then ({ s with ssr := value }, [])
  else if address = 5 then (s, [])
  else ({ s with data := fun k => if k = address then value else s.data k }, [])

/-- The method `Serial::send`: each byte is pushed at the back of the queue, in order. -/
def Serial.send (s : Serial) (bytes : List Nat) : Serial :=
  bytes.foldl (fun (acc : Serial) b => { acc with tosend := acc.tosend ++ [b] }) s

/-- The method `Serial::tick`, with `cycles` the value of `state->getCycles()`: the object
after the call and the interrupt vectors raised, in order. -/
def Serial.tick (s : Serial) (cycles : Nat) : Serial × List Int :=
  let a : Serial × List Int :=
    if s.txrtimer ≠ 0 then
      let diff : Int := toInt32 (((cycles + 2 ^ 64 - s.lastcycles) % 2 ^ 64 : Nat) : Int)
      let tm : Int := toInt32 (s.txrtimer - diff)
      if tm ≤ 0 then
        ({ s with lastcycles := cycles, txrtimer := s.clocktime },
          if s.scr &&& 128 ≠ 0 then [54 + s.irqoff] else [])
      else ({ s with lastcycles := cycles, txrtimer := tm }, [])
    else (s, [])
  match a.1.tosend with
  | [] => a
  | b :: rest =>
    if a.1.ssr &&& 64 = 0 then
      ({ a.1 with ssr := a.1.ssr ||| 64, rdr := b, tosend := rest }, a.2 ++ [53 + a.1.irqoff])
    else a

/-- The method `Serial::hasPendingRX`. -/
def Serial.hasPendingRX (s : Serial) : Bool := !s.tosend.isEmpty

/-! ## Serial channel: the receive loop of a driver -/

/-- One round of a receiving driver: `tick()`, then `read` of receive-data (offset 5), then
`write` of the byte `w` to the status register (offset 4).  Returns the object, the byte read
and the interrupt vectors raised. -/
def Serial.receiveRound (s : Serial) (cycles w : Nat) : Serial × Nat × List Int :=
  let a := Serial.tick s cycles
  let b := Serial.read a.1 5
  let c := Serial.write b.2 4 w
  (c.1, b.1, a.2)

/-- The rounds of `Serial.receiveRound` for a list of `(cycles, w)` pairs, in order: the final
object, the bytes read and the interrupt vectors raised. -/
def Serial.receiveLoop (s : Serial) : List (Nat × Nat) → Serial × List Nat × List Int
  | [] => (s, [], [])
  | p :: rest =>
    let r := Serial.receiveRound s p.1 p.2
    let r2 := Serial.receiveLoop r.1 rest
    (r2.1, r.2.1 :: r2.2.1, r.2.2 ++ r2.2.2)

/-! ## Concrete states used to evaluate the operations -/

/-- A timer unit in which only channel 0 runs, in clear-on-B mode (`tcr = 0xC0`), with
`gra = 5`, `grb = 2`, the counter at 0 and the compare-A interrupt enabled. -/
def exClearOnB : Timers :=
  { Timers.init with
    tstr := 0xc1
    channels := fun _ =>
      { tcnt := 0, gra := 5, grb := 2, tcr := 0xc0, tsr := 0xf8, tier := 0xf9 } }

/-- A timer unit in which only channel 0 runs, free-running (`tcr = 0x80`), with `gra = 5`,
`grb = 0xFFFF`, the counter at 0 and the compare-A interrupt enabled. -/
def exFreeRun : Timers :=
  { Timers.init with
    tstr := 0xc1
    channels := fun _ =>
      { tcnt := 0, gra := 5, grb := 0xffff, tcr := 0x80, tsr := 0xf8, tier := 0xf9 } }

/-- A timer unit in which channel 0 runs with the default compare registers, the counter at
`0xFFFF` and only the overflow interrupt enabled (`tier = 0xFC`). -/
def exWrap : Timers :=
  { Timers.init with
    tstr := 0xc1
    channels := fun _ =>
      { tcnt := 0xffff, gra := 0xffff, grb := 0xffff, tcr := 0x80, tsr := 0xf8, tier := 0xfc } }

/-- A timer unit in which only channel 0 runs, in clear-on-A mode (`tcr = 0xA0`), with
`gra = 5`, `grb = 0xFFFF`, the counter at 0 and the compare-A interrupt enabled. -/
def exClearOnA : Timers :=
  { Timers.init with
    tstr := 0xc1
    channels := fun _ =>
      { tcnt := 0, gra := 5, grb := 0xffff, tcr := 0xa0, tsr := 0xf8, tier := 0xf9 } }

/-- A freshly constructed serial channel, `Serial(0, 5000, callback)`, with a zeroed `data`
array. -/
def exSerial : Serial := Serial.init 0 5000 (fun _ => 0)

/-! ## Timer unit: `tick`, basic facts -/

theorem Timers.tickChannel_halted (cycles : Nat) (t : Timers) (j : Nat)
    (h : t.tstr &&& (1 <<< j) = 0) : Timers.tickChannel cycles t j = (t, []) := by
  simp [Timers.tickChannel, h]

theorem Timers.tickChannel_tstr (cycles : Nat) (t : Timers) (j : Nat) :
    (Timers.tickChannel cycles t j).1.tstr = t.tstr := by
  simp only [Timers.tickChannel]
  split_ifs <;> rfl

theorem Timers.tickChannel_running (cycles : Nat) (t : Timers) (i : Nat)
    (hs : t.tstr &&& (1 <<< i) ≠ 0) (hm : t.tmdr &&& (1 <<< i) = 0)
    (he : (t.channels i).tcr &&& 4 = 0) :
    Timers.tickChannel cycles t i =
      ({ t with channels := fun k =>
          if k = i then
            (Timers.runChannel i
              (Timers.elapsed cycles t.lastCycles ((t.channels i).tcr &&& 3))
              (t.channels i)).1
          else t.channels k },
        (Timers.runChannel i
          (Timers.elapsed cycles t.lastCycles ((t.channels i).tcr &&& 3))
          (t.channels i)).2) := by
  simp [Timers.tickChannel, hs, hm, he]

theorem Timers.runChannel_add (i : Nat) (n m : Nat) (c : Channel) :
    Timers.runChannel i (n + m) c =
      ((Timers.runChannel i m (Timers.runChannel i n c).1).1,
        (Timers.runChannel i n c).2 ++ (Timers.runChannel i m (Timers.runChannel i n c).1).2) := by
  induction n generalizing c with
  | zero => simp [Timers.runChannel]
  | succ k ih =>
    have h : k + 1 + m = (k + m) + 1 := by omega
    rw [h]
    simp [Timers.runChannel, ih, List.append_assoc]

theorem Timers.subTick_mem (i : Nat) (c : Channel) (v : Nat)
    (hv : v ∈ (Timers.subTick i c).2) :
    v = 24 + i * 4 ∨ v = 25 + i * 4 ∨ v = 26 + i * 4 := by
  unfold Timers.subTick at hv
  simp only at hv
  split_ifs at hv <;> simp at hv <;> omega

theorem Timers.runChannel_mem (i : Nat) (n : Nat) (c : Channel) (v : Nat)
    (hv : v ∈ (Timers.runChannel i n c).2) :
    v = 24 + i * 4 ∨ v = 25 + i * 4 ∨ v = 26 + i * 4 := by
  induction n generalizing c with
  | zero => simp [Timers.runChannel] at hv
  | succ k ih =>
    simp only [Timers.runChannel, List.mem_append] at hv
    rcases hv with h | h
    · exact Timers.subTick_mem i c v h
    · exact ih _ h

/-- When channel `i` is the only one whose start bit is set, the tick is the tick of
channel `i` followed by the snapshot. -/
theorem Timers.tick_only (cycles : Nat) (t : Timers) (i : Nat) (hi : i < 5)
    (hothers : ∀ j, j < 5 → j ≠ i → t.tstr &&& (1 <<< j) = 0) :
    Timers.tick t cycles =
      ({ (Timers.tickChannel cycles t i).1 with lastCycles := cycles },
        (Timers.tickChannel cycles t i).2) := by
  have h0 := hothers 0
  have h1 := hothers 1
  have h2 := hothers 2
  have h3 := hothers 3
  have h4 := hothers 4
  have hr : List.range 5 = [0, 1, 2, 3, 4] := by decide
  unfold Timers.tick
  rw [hr]
  interval_cases i <;>
    simp only [List.foldl_cons, List.foldl_nil] <;>
    simp_all [Timers.tickChannel_halted, Timers.tickChannel_tstr]

/-- While the counter stays below `gra` (and no clear on B can hit first), `n` sub-ticks
add `n` to the counter, keep the registers and raise no compare-A interrupt. -/
theorem Timers.runChannel_climb (i : Nat) (n : Nat) (c : Channel)
    (hle : c.tcnt + n ≤ c.gra) (hgra : c.gra < 65536)
    (hB : c.tcr &&& 0x60 = 0x40 → c.gra ≤ c.grb) :
    (Timers.runChannel i n c).1.tcnt = c.tcnt + n ∧
      (Timers.runChannel i n c).1.gra = c.gra ∧
      (Timers.runChannel i n c).1.grb = c.grb ∧
      (Timers.runChannel i n c).1.tcr = c.tcr ∧
      (Timers.runChannel i n c).1.tier = c.tier ∧
      (Timers.runChannel i n c).2.count (24 + i * 4) = 0 := by
  induction n generalizing c with
  | zero => simp [Timers.runChannel]
  | succ k ih =>
    have hne : c.tcnt ≠ c.gra := by omega
    have hstep : (Timers.subTick i c).1.tcnt = c.tcnt + 1 ∧
        (Timers.subTick i c).1.gra = c.gra ∧ (Timers.subTick i c).1.grb = c.grb ∧
        (Timers.subTick i c).1.tcr = c.tcr ∧ (Timers.subTick i c).1.tier = c.tier ∧
        (Timers.subTick i c).2.count (24 + i * 4) = 0 := by
      have hmod : (c.tcnt + 1) % 65536 = c.tcnt + 1 := Nat.mod_eq_of_lt (by omega)
      have hnoB : c.tcnt = c.grb → ¬ (c.tcr &&& 0x60 = 0x40) := by
        intro h1 h2
        have := hB h2
        omega
      unfold Timers.subTick
      simp only [hne, if_false, hmod]
      refine ⟨?_, ?_, ?_, ?_, ?_, ?_⟩
      · split_ifs with h1 h2 <;> first | rfl | exact absurd h2 (hnoB h1)
      · trivial
      · trivial
      · trivial
      · trivial
      · split_ifs <;> simp [List.count_cons]
    obtain ⟨s1, s2, s3, s4, s5, s6⟩ := hstep
    have ih2 := ih (Timers.subTick i c).1 (by rw [s1, s2]; omega) (by rw [s2]; exact hgra)
      (by rw [s4, s2, s3]; exact hB)
    obtain ⟨r1, r2, r3, r4, r5, r6⟩ := ih2
    simp only [Timers.runChannel, List.count_append]
    refine ⟨?_, ?_, ?_, ?_, ?_, ?_⟩
    · rw [r1, s1]; omega
    · rw [r2, s2]
    · rw [r3, s3]
    · rw [r4, s4]
    · rw [r5, s5]
    · rw [r6, s6]

/-- A sub-tick that sees `tcnt == gra` with the compare-A interrupt enabled raises
`24 + 4i` exactly once. -/
theorem Timers.subTick_hitA (i : Nat) (c : Channel) (h : c.tcnt = c.gra)
    (hie : c.tier &&& 1 ≠ 0) : (Timers.subTick i c).2.count (24 + i * 4) = 1 := by
  unfold Timers.subTick
  simp only [h, if_true, hie, ne_eq, not_false_eq_true]
  split_ifs <;> simp [List.count_cons, List.count_append]

theorem Timers.tickChannel_frame (cycles : Nat) (t : Timers) (j : Nat) :
    (Timers.tickChannel cycles t j).1.tstr = t.tstr ∧
      (Timers.tickChannel cycles t j).1.tmdr = t.tmdr ∧
      (Timers.tickChannel cycles t j).1.lastCycles = t.lastCycles ∧
      (Timers.tickChannel cycles t j).1.space = t.space ∧
      (Timers.tickChannel cycles t j).1.tsnc = t.tsnc ∧
      (Timers.tickChannel cycles t j).1.tfcr = t.tfcr ∧
      ∀ i, i ≠ j → (Timers.tickChannel cycles t j).1.channels i = t.channels i := by
  simp only [Timers.tickChannel]
  split_ifs <;> simp +contextual

/-- The effect of the loop body on channel `i` depends only on the start and mode bytes, the
snapshot and channel `i` itself. -/
theorem Timers.tickChannel_congr (cycles : Nat) (t u : Timers) (i : Nat)
    (h1 : u.tstr = t.tstr) (h2 : u.tmdr = t.tmdr) (h3 : u.lastCycles = t.lastCycles)
    (h4 : u.channels i = t.channels i) :
    (Timers.tickChannel cycles u i).2 = (Timers.tickChannel cycles t i).2 ∧
      (Timers.tickChannel cycles u i).1.channels i =
        (Timers.tickChannel cycles t i).1.channels i := by
  simp only [Timers.tickChannel, h1, h2, h3, h4]
  split_ifs <;> simp [h4]

/-- The state and interrupt list after the first `n` rounds of the outer loop of `tick`:
the global bytes are untouched, channel `i < n` is what the loop body makes of it on the
initial state, and the interrupts are those of the channels `0..n-1`, in that order. -/
theorem Timers.tick_upto (cycles : Nat) (t : Timers) (n : Nat) :
    ((List.range n).foldl
        (fun (acc : Timers × List Nat) i =>
          ((Timers.tickChannel cycles acc.1 i).1, acc.2 ++ (Timers.tickChannel cycles acc.1 i).2))
        (t, [])).1.tstr = t.tstr ∧
    ((List.range n).foldl
        (fun (acc : Timers × List Nat) i =>
          ((Timers.tickChannel cycles acc.1 i).1, acc.2 ++ (Timers.tickChannel cycles acc.1 i).2))
        (t, [])).1.tmdr = t.tmdr ∧
    ((List.range n).foldl
        (fun (acc : Timers × List Nat) i =>
          ((Timers.tickChannel cycles acc.1 i).1, acc.2 ++ (Timers.tickChannel cycles acc.1 i).2))
        (t, [])).1.lastCycles = t.lastCycles ∧
    ((List.range n).foldl
        (fun (acc : Timers × List Nat) i =>
          ((Timers.tickChannel cycles acc.1 i).1, acc.2 ++ (Timers.tickChannel cycles acc.1 i).2))
        (t, [])).1.space = t.space ∧
    ((List.range n).foldl
        (fun (acc : Timers × List Nat) i =>
          ((Timers.tickChannel cycles acc.1 i).1, acc.2 ++ (Timers.tickChannel cycles acc.1 i).2))
        (t, [])).1.tsnc = t.tsnc ∧
    ((List.range n).foldl
        (fun (acc : Timers × List Nat) i =>
          ((Timers.tickChannel cycles acc.1 i).1, acc.2 ++ (Timers.tickChannel cycles acc.1 i).2))
        (t, [])).1.tfcr = t.tfcr ∧
    (∀ i, ((List.range n).foldl
        (fun (acc : Timers × List Nat) i =>
          ((Timers.tickChannel cycles acc.1 i).1, acc.2 ++ (Timers.tickChannel cycles acc.1 i).2))
        (t, [])).1.channels i =
      if i < n then (Timers.tickChannel cycles t i).1.channels i else t.channels i) ∧
    ((List.range n).foldl
        (fun (acc : Timers × List Nat) i =>
          ((Timers.tickChannel cycles acc.1 i).1, acc.2 ++ (Timers.tickChannel cycles acc.1 i).2))
        (t, [])).2 = (List.range n).flatMap (fun k => (Timers.tickChannel cycles t k).2) := by
  induction n with
  | zero => simp
  | succ k ih =>
    obtain ⟨a1, a2, a3, a4, a5, a6, a7, a8⟩ := ih
    rw [List.range_succ, List.foldl_append]
    simp only [List.foldl_cons, List.foldl_nil, List.flatMap_append, List.flatMap_cons,
      List.flatMap_nil, List.append_nil]
    generalize (List.range k).foldl
        (fun (acc : Timers × List Nat) i =>
          ((Timers.tickChannel cycles acc.1 i).1, acc.2 ++ (Timers.tickChannel cycles acc.1 i).2))
        (t, []) = r at a1 a2 a3 a4 a5 a6 a7 a8 ⊢
    obtain ⟨f1, f2, f3, f4, f5, f6, f7⟩ := Timers.tickChannel_frame cycles r.1 k
    have hk : r.1.channels k = t.channels k := by rw [a7 k]; simp
    obtain ⟨c1, c2⟩ := Timers.tickChannel_congr cycles t r.1 k a1 a2 a3 hk
    refine ⟨f1.trans a1, f2.trans a2, f3.trans a3, f4.trans a4, f5.trans a5, f6.trans a6,
      ?_, ?_⟩
    · intro i
      by_cases hik : i = k
      · subst hik
        simp [c2]
      · rw [f7 i hik, a7 i]
        by_cases hlt : i < k
        · have : i < k + 1 := by omega
          simp [hlt, this]
        · have : ¬ i < k + 1 := by omega
          simp [hlt, this]
    · rw [a8, c1]

/-- The interrupts of a tick are those of channels 0 to 4, each computed on the initial
state, in ascending channel order. -/
theorem Timers.tick_irqs (cycles : Nat) (t : Timers) :
    (Timers.tick t cycles).2 =
      (List.range 5).flatMap (fun k => (Timers.tickChannel cycles t k).2) :=
  (Timers.tick_upto cycles t 5).2.2.2.2.2.2.2

/-- After a tick, channel `i < 5` is what the loop body makes of it on the initial state. -/
theorem Timers.tick_channel (cycles : Nat) (t : Timers) (i : Nat) (hi : i < 5) :
    (Timers.tick t cycles).1.channels i = (Timers.tickChannel cycles t i).1.channels i := by
  have h := (Timers.tick_upto cycles t 5).2.2.2.2.2.2.1 i
  simp only [hi, if_true] at h
  exact h

theorem Timers.tickChannel_mem (cycles : Nat) (t : Timers) (j v : Nat)
    (hv : v ∈ (Timers.tickChannel cycles t j).2) :
    v = 24 + j * 4 ∨ v = 25 + j * 4 ∨ v = 26 + j * 4 := by
  simp only [Timers.tickChannel] at hv
  split_ifs at hv
  · simp at hv
  · simp at hv
  · simp at hv
  · exact Timers.runChannel_mem j _ _ v hv

/-- The number of times a tick raises one of channel `i`'s vectors is the number of times
the loop body for channel `i` raises it. -/
theorem Timers.tick_count_own (cycles : Nat) (t : Timers) (i v : Nat) (hi : i < 5)
    (hv : v = 24 + i * 4 ∨ v = 25 + i * 4 ∨ v = 26 + i * 4) :
    (Timers.tick t cycles).2.count v = (Timers.tickChannel cycles t i).2.count v := by
  have hz : ∀ j, j ≠ i → (Timers.tickChannel cycles t j).2.count v = 0 := by
    intro j hj
    rw [List.count_eq_zero]
    intro hm
    have := Timers.tickChannel_mem cycles t j v hm
    omega
  have hr : List.range 5 = [0, 1, 2, 3, 4] := by decide
  rw [Timers.tick_irqs, hr]
  simp only [List.flatMap_cons, List.flatMap_nil, List.append_nil, List.count_append]
  interval_cases i
  · rw [hz 1 (by omega), hz 2 (by omega), hz 3 (by omega), hz 4 (by omega)]; omega
  · rw [hz 0 (by omega), hz 2 (by omega), hz 3 (by omega), hz 4 (by omega)]; omega
  · rw [hz 0 (by omega), hz 1 (by omega), hz 3 (by omega), hz 4 (by omega)]; omega
  · rw [hz 0 (by omega), hz 1 (by omega), hz 2 (by omega), hz 4 (by omega)]; omega
  · rw [hz 0 (by omega), hz 1 (by omega), hz 2 (by omega), hz 3 (by omega)]; omega

/-! ## Claims -/

/-- C1 (as amended): when channel `i` is the only enabled channel, its counter is 0, its
compare-A interrupt is enabled, and the channel is not in clear-on-B mode with
`compareB < compareA`, a tick whose elapsed sub-tick count is exactly `compareA + 1` raises
interrupt `24 + 4i` exactly once, and every interrupt raised is one of channel `i`. -/
theorem C1_compareA_once (t : Timers) (cycles i : Nat) (hi : i < 5)
    (hstart : t.tstr &&& (1 <<< i) ≠ 0)
    (hmode : t.tmdr &&& (1 <<< i) = 0)
    (hext : (t.channels i).tcr &&& 4 = 0)
    (hothers : ∀ j, j < 5 → j ≠ i → t.tstr &&& (1 <<< j) = 0)
    (hcnt : (t.channels i).tcnt = 0)
    (hgra : (t.channels i).gra < 65536)
    (hie : (t.channels i).tier &&& 1 ≠ 0)
    (hB : (t.channels i).tcr &&& 0x60 = 0x40 → (t.channels i).gra ≤ (t.channels i).grb)
    (hinc : Timers.elapsed cycles t.lastCycles ((t.channels i).tcr &&& 3)
      = (t.channels i).gra + 1) :
    (Timers.tick t cycles).2.count (24 + i * 4) = 1 ∧
      ∀ v ∈ (Timers.tick t cycles).2, v = 24 + i * 4 ∨ v = 25 + i * 4 ∨ v = 26 + i * 4 := by
  rw [Timers.tick_only cycles t i hi hothers,
    Timers.tickChannel_running cycles t i hstart hmode hext]
  refine ⟨?_, fun v hv => Timers.runChannel_mem i _ _ v hv⟩
  simp only [hinc]
  rw [Timers.runChannel_add]
  obtain ⟨r1, r2, _, _, r5, r6⟩ :=
    Timers.runChannel_climb i (t.channels i).gra (t.channels i) (by omega) hgra hB
  simp only [List.count_append, r6, Timers.runChannel, List.append_nil, Nat.zero_add]
  exact Timers.subTick_hitA i _ (by rw [r1, r2, hcnt]; omega) (by rw [r5]; exact hie)

/-- C1 (as stated) fails: in `exClearOnB` channel 0 is the only enabled channel, its counter
is 0, its compare-A interrupt is enabled and the tick has exactly `gra + 1 = 6` elapsed
sub-ticks, yet the counter is cleared at `grb = 2` each time, never reaches `gra = 5`, and
the tick raises no interrupt at all. -/
theorem C1_counterexample :
    (exClearOnB.tstr &&& (1 <<< 0) ≠ 0 ∧ exClearOnB.tmdr &&& (1 <<< 0) = 0 ∧
      (exClearOnB.channels 0).tcr &&& 4 = 0 ∧
      (∀ j, j < 5 → j ≠ 0 → exClearOnB.tstr &&& (1 <<< j) = 0) ∧
      (exClearOnB.channels 0).tcnt = 0 ∧ (exClearOnB.channels 0).tier &&& 1 ≠ 0 ∧
      Timers.elapsed 6 exClearOnB.lastCycles ((exClearOnB.channels 0).tcr &&& 3)
        = (exClearOnB.channels 0).gra + 1) ∧
    (Timers.tick exClearOnB 6).2 = [] ∧
    (Timers.tick exClearOnB 6).2.count (24 + 0 * 4) ≠ 1 := by
  decide

/-- Witness of C1 (as amended): in `exFreeRun`, six elapsed sub-ticks raise vector 24 once. -/
theorem C1_compareA_once_witness : (Timers.tick exFreeRun 6).2.count (24 + 0 * 4) = 1 :=
  (C1_compareA_once exFreeRun 6 0 (by decide) (by decide) (by decide) (by decide)
    (by decide) (by decide) (by decide) (by decide) (by decide) (by decide)).1

/-- C2 (as stated) fails: in `exWrap` channel 0 runs with `gra = grb = 0xFFFF`, the overflow
interrupt enabled and the counter at `0xFFFF`; a tick with exactly one elapsed sub-tick
leaves the counter at 0 but does not raise vector 26. -/
theorem C2_counterexample :
    (exWrap.tstr &&& (1 <<< 0) ≠ 0 ∧ exWrap.tmdr &&& (1 <<< 0) = 0 ∧
      (exWrap.channels 0).tcr &&& 4 = 0 ∧
      (exWrap.channels 0).gra = 0xffff ∧ (exWrap.channels 0).grb = 0xffff ∧
      (exWrap.channels 0).tier &&& 4 ≠ 0 ∧ (exWrap.channels 0).tcnt = 0xffff ∧
      Timers.elapsed 1 exWrap.lastCycles ((exWrap.channels 0).tcr &&& 3) = 1) ∧
    ((Timers.tick exWrap 1).1.channels 0).tcnt = 0 ∧
    (26 + 0 * 4) ∉ (Timers.tick exWrap 1).2 := by
  decide

/-- What the loop body does to a running channel: the inner loop on that channel. -/
theorem Timers.tickChannel_running_channel (cycles : Nat) (t : Timers) (i : Nat)
    (hs : t.tstr &&& (1 <<< i) ≠ 0) (hm : t.tmdr &&& (1 <<< i) = 0)
    (he : (t.channels i).tcr &&& 4 = 0) :
    (Timers.tickChannel cycles t i).1.channels i =
        (Timers.runChannel i
          (Timers.elapsed cycles t.lastCycles ((t.channels i).tcr &&& 3)) (t.channels i)).1 ∧
      (Timers.tickChannel cycles t i).2 =
        (Timers.runChannel i
          (Timers.elapsed cycles t.lastCycles ((t.channels i).tcr &&& 3)) (t.channels i)).2 := by
  rw [Timers.tickChannel_running cycles t i hs hm he]
  simp

/-- A sub-tick that sees the counter at `0xFFFF` with `gra = grb = 0xFFFF` moves it to 0
(by wrap or by clear) and raises no overflow interrupt. -/
theorem Timers.subTick_wrap (i : Nat) (c : Channel) (hcnt : c.tcnt = 0xffff)
    (hgra : c.gra = 0xffff) (hgrb : c.grb = 0xffff) :
    (Timers.subTick i c).1.tcnt = 0 ∧ (Timers.subTick i c).1.gra = c.gra ∧
      (Timers.subTick i c).1.grb = c.grb ∧ (Timers.subTick i c).1.tier = c.tier ∧
      (Timers.subTick i c).2.count (26 + i * 4) = 0 := by
  have e1 : 24 + i * 4 ≠ 26 + i * 4 := by omega
  have e2 : 25 + i * 4 ≠ 26 + i * 4 := by omega
  have e3 : ¬ ((65535 : Nat) = 0) := by decide
  simp only [Timers.subTick, hcnt, hgra, hgrb, if_true, e3, false_and, if_false]
  refine ⟨?_, trivial, trivial, trivial, ?_⟩
  · split_ifs <;> rfl
  · split_ifs <;> simp [List.count_cons, e1, e2]

/-- A sub-tick that sees the counter at 0 with `gra = grb = 0xFFFF` and the overflow
interrupt enabled moves it to 1 and raises exactly the overflow interrupt. -/
theorem Timers.subTick_zero (i : Nat) (c : Channel) (hcnt : c.tcnt = 0)
    (hgra : c.gra = 0xffff) (hgrb : c.grb = 0xffff) (hie : c.tier &&& 4 ≠ 0) :
    (Timers.subTick i c).1.tcnt = 1 ∧ (Timers.subTick i c).2 = [26 + i * 4] := by
  have e3 : ¬ ((0 : Nat) = 65535) := by decide
  simp [Timers.subTick, hcnt, hgra, hgrb, hie]

/-- C2 (as amended): for a running channel `i` with `compareA = compareB = 0xFFFF`, the
overflow interrupt enabled and the counter at `0xFFFF`, a tick with exactly one elapsed
sub-tick leaves the counter at 0 and does not raise the overflow interrupt `26 + 4i`; the
overflow interrupt is raised by the following sub-tick, the one that sees the counter at 0:
a tick with exactly two elapsed sub-ticks raises `26 + 4i` exactly once and leaves the
counter at 1. -/
theorem C2_overflow_one_subtick_late (t : Timers) (cycles1 cycles2 i : Nat) (hi : i < 5)
    (hstart : t.tstr &&& (1 <<< i) ≠ 0)
    (hmode : t.tmdr &&& (1 <<< i) = 0)
    (hext : (t.channels i).tcr &&& 4 = 0)
    (hgra : (t.channels i).gra = 0xffff)
    (hgrb : (t.channels i).grb = 0xffff)
    (hie : (t.channels i).tier &&& 4 ≠ 0)
    (hcnt : (t.channels i).tcnt = 0xffff)
    (h1 : Timers.elapsed cycles1 t.lastCycles ((t.channels i).tcr &&& 3) = 1)
    (h2 : Timers.elapsed cycles2 t.lastCycles ((t.channels i).tcr &&& 3) = 2) :
    ((Timers.tick t cycles1).1.channels i).tcnt = 0 ∧
      (26 + i * 4) ∉ (Timers.tick t cycles1).2 ∧
      ((Timers.tick t cycles2).1.channels i).tcnt = 1 ∧
      (Timers.tick t cycles2).2.count (26 + i * 4) = 1 := by
  obtain ⟨a1, a2⟩ := Timers.tickChannel_running_channel cycles1 t i hstart hmode hext
  obtain ⟨b1, b2⟩ := Timers.tickChannel_running_channel cycles2 t i hstart hmode hext
  rw [← List.count_eq_zero, Timers.tick_channel cycles1 t i hi,
    Timers.tick_channel cycles2 t i hi,
    Timers.tick_count_own cycles1 t i _ hi (Or.inr (Or.inr rfl)),
    Timers.tick_count_own cycles2 t i _ hi (Or.inr (Or.inr rfl)), a1, a2, b1, b2, h1, h2]
  obtain ⟨w1, w2, w3, w4, w5⟩ := Timers.subTick_wrap i (t.channels i) hcnt hgra hgrb
  obtain ⟨z1, z2⟩ := Timers.subTick_zero i (Timers.subTick i (t.channels i)).1 w1
    (by rw [w2]; exact hgra) (by rw [w3]; exact hgrb) (by rw [w4]; exact hie)
  simp only [Timers.runChannel, List.append_nil, List.count_append, w1, w5, z1, z2]
  simp

/-- Witness of C2 (as amended), on `exWrap` with one and with two elapsed cycles. -/
theorem C2_overflow_one_subtick_late_witness :
    ((Timers.tick exWrap 1).1.channels 0).tcnt = 0 ∧
      (26 + 0 * 4) ∉ (Timers.tick exWrap 1).2 ∧
      ((Timers.tick exWrap 2).1.channels 0).tcnt = 1 ∧
      (Timers.tick exWrap 2).2.count (26 + 0 * 4) = 1 :=
  C2_overflow_one_subtick_late exWrap 1 2 0 (by decide) (by decide) (by decide) (by decide)
    (by decide) (by decide) (by decide) (by decide) (by decide) (by decide)

/-! ## Serial channel -/

/-- C3: the code at the failing input.  Writing the sentinel byte `0xFE` to the
transmit-data register (offset 3) of any serial channel calls the output callback, with
`0xFE`: the test `value != -2` compares a `uint8_t` promoted to `int`, which is never
negative. -/
theorem C3_sentinel_write_invokes_callback (s : Serial) :
    (Serial.write s 3 0xfe).2 = [0xfe] := by
  have h : (3 : Nat) &&& 7 = 3 := by decide
  simp [Serial.write, h]

theorem Serial.and127_and128 (a : Nat) : (a &&& 127) &&& 128 = 0 := by
  have h : (127 : Nat) &&& 128 = 0 := by decide
  rw [Nat.and_assoc, h, Nat.and_zero]

theorem Serial.and127_testBit (a k : Nat) (hk : k < 8) (h7 : k ≠ 7) :
    (a &&& 127).testBit k = a.testBit k := by
  have h : (127 : Nat) = 2 ^ 7 - 1 := by decide
  have hk7 : k < 7 := by omega
  rw [h, Nat.testBit_and, Nat.testBit_two_pow_sub_one]
  simp [hk7]

/-- C4: for every byte `v` other than the sentinel `0xFE`, writing `v` to the transmit-data
register (any address with `address & 7 == 3`) calls the output callback exactly once, with
`v`; afterwards transmit-data reads back `v`, the transmit timer equals `clocktime`, status
bit 7 is clear, every other status bit is unchanged, and the control register, receive-data
and the inbound queue are unchanged. -/
theorem C4_transmit_write (s : Serial) (address v : Nat) (ha : address &&& 7 = 3)
    (_hv : v < 256) (_hs : v ≠ 0xfe) :
    (Serial.write s address v).2 = [v] ∧
      (Serial.read (Serial.write s address v).1 address).1 = v ∧
      (Serial.write s address v).1.txr = v ∧
      (Serial.write s address v).1.txrtimer = s.clocktime ∧
      (Serial.write s address v).1.ssr &&& 128 = 0 ∧
      (∀ k, k < 8 → k ≠ 7 →
        (Serial.write s address v).1.ssr.testBit k = s.ssr.testBit k) ∧
      (Serial.write s address v).1.scr = s.scr ∧
      (Serial.write s address v).1.rdr = s.rdr ∧
      (Serial.write s address v).1.tosend = s.tosend := by
  have hne : ((v : Int) ≠ -2) := by omega
  refine ⟨?_, ?_, ?_, ?_, ?_, ?_, ?_, ?_, ?_⟩
  · simp [Serial.write, ha, hne]
  · simp [Serial.write, Serial.read, ha]
  · simp [Serial.write, ha]
  · simp [Serial.write, ha]
  · simp [Serial.write, ha, Serial.and127_and128]
  · intro k hk h7
    simp [Serial.write, ha, Serial.and127_testBit _ k hk h7]
  · simp [Serial.write, ha]
  · simp [Serial.write, ha]
  · simp [Serial.write, ha]

/-- Witness of C4: the byte `0x55` written at offset 3 of a fresh serial channel. -/
theorem C4_transmit_write_witness :
    (Serial.write exSerial 3 0x55).2 = [0x55] ∧
      (Serial.read (Serial.write exSerial 3 0x55).1 3).1 = 0x55 ∧
      (Serial.write exSerial 3 0x55).1.txrtimer = 5000 ∧
      (Serial.write exSerial 3 0x55).1.ssr &&& 128 = 0 :=
  have h := C4_transmit_write exSerial 3 0x55 (by decide) (by decide) (by decide)
  ⟨h.1, h.2.1, h.2.2.2.1, h.2.2.2.2.1⟩

theorem Serial.or_and_self (a m : Nat) : (a ||| m) &&& m = m := by
  apply Nat.eq_of_testBit_eq
  intro j
  simp only [Nat.testBit_and, Nat.testBit_or]
  cases a.testBit j <;> cases m.testBit j <;> rfl

/-- The transmit-timer part of `Serial::tick` leaves the receive side alone and raises at
most the vector `54 + irqoff`; the receive part then acts on the original queue and
status. -/
theorem Serial.tick_rx (s : Serial) (cycles : Nat) :
    (Serial.tick s cycles).1.irqoff = s.irqoff ∧
      (∀ b rest, s.tosend = b :: rest → s.ssr &&& 64 = 0 →
        (Serial.tick s cycles).1.rdr = b ∧
          (Serial.tick s cycles).1.ssr = s.ssr ||| 64 ∧
          (Serial.tick s cycles).1.tosend = rest ∧
          (Serial.tick s cycles).2.count (53 + s.irqoff) = 1) ∧
      ((s.ssr &&& 64 ≠ 0 ∨ s.tosend = []) →
        (Serial.tick s cycles).1.rdr = s.rdr ∧
          (Serial.tick s cycles).1.ssr = s.ssr ∧
          (Serial.tick s cycles).1.tosend = s.tosend ∧
          (Serial.tick s cycles).2.count (53 + s.irqoff) = 0) := by
  have e : (54 : Int) + s.irqoff ≠ 53 + s.irqoff := by omega
  refine ⟨?_, ?_, ?_⟩
  · simp only [Serial.tick]
    split_ifs <;> split <;> rfl
  · intro b rest hq hfull
    simp only [Serial.tick]
    split_ifs <;> simp [hq, hfull, List.count_cons, List.count_append, e]
  · intro h
    simp only [Serial.tick]
    rcases h with h | h
    · cases hq : s.tosend with
      | nil => split_ifs <;> simp [hq, List.count_cons, e]
      | cons b rest => split_ifs <;> simp [hq, h, List.count_cons, e]
    · split_ifs <;> simp [h, List.count_cons, e]

/-- C5: receive gating of `Serial::tick`.  If the inbound queue is `b :: rest` and status
bit 6 is clear, the tick sets receive-data to `b`, sets status bit 6 (changing no other
status bit), leaves exactly `rest` in the queue and raises `53 + irqoff` exactly once.  If
status bit 6 is set or the queue is empty, the tick leaves receive-data, status and the
queue unchanged and does not raise `53 + irqoff`. -/
theorem C5_receive_gating (s : Serial) (cycles : Nat) :
    (∀ b rest, s.tosend = b :: rest → s.ssr &&& 64 = 0 →
        (Serial.tick s cycles).1.rdr = b ∧
          (Serial.tick s cycles).1.ssr &&& 64 ≠ 0 ∧
          (Serial.tick s cycles).1.ssr = s.ssr ||| 64 ∧
          (Serial.tick s cycles).1.tosend = rest ∧
          (Serial.tick s cycles).2.count (53 + s.irqoff) = 1) ∧
      ((s.ssr &&& 64 ≠ 0 ∨ s.tosend = []) →
        (Serial.tick s cycles).1.rdr = s.rdr ∧
          (Serial.tick s cycles).1.ssr = s.ssr ∧
          (Serial.tick s cycles).1.tosend = s.tosend ∧
          (53 + s.irqoff) ∉ (Serial.tick s cycles).2) := by
  obtain ⟨_, h1, h2⟩ := Serial.tick_rx s cycles
  refine ⟨?_, ?_⟩
  · intro b rest hq hfull
    obtain ⟨a1, a2, a3, a4⟩ := h1 b rest hq hfull
    refine ⟨a1, ?_, a2, a3, a4⟩
    rw [a2, Serial.or_and_self]
    decide
  · intro h
    obtain ⟨a1, a2, a3, a4⟩ := h2 h
    exact ⟨a1, a2, a3, List.count_eq_zero.mp a4⟩

/-- Witness of C5: a fresh serial channel after `send([0x41, 0x42])`; the first tick delivers
`0x41`, and the second tick, with the flag still set, delivers nothing. -/
theorem C5_receive_gating_witness :
    (Serial.tick (Serial.send exSerial [0x41, 0x42]) 10).1.rdr = 0x41 ∧
      (Serial.tick (Serial.send exSerial [0x41, 0x42]) 10).1.tosend = [0x42] ∧
      (Serial.tick (Serial.tick (Serial.send exSerial [0x41, 0x42]) 10).1 20).1.rdr = 0x41 ∧
      (Serial.tick (Serial.tick (Serial.send exSerial [0x41, 0x42]) 10).1 20).1.tosend
        = [0x42] :=
  have h1 := (C5_receive_gating (Serial.send exSerial [0x41, 0x42]) 10).1 0x41 [0x42]
    (by decide) (by decide)
  have h2 := (C5_receive_gating (Serial.tick (Serial.send exSerial [0x41, 0x42]) 10).1 20).2
    (Or.inl (by decide))
  ⟨h1.1, h1.2.2.2.1, h2.1.trans h1.1, h2.2.2.1.trans h1.2.2.2.1⟩

theorem Serial.send_spec (s : Serial) (bs : List Nat) :
    (Serial.send s bs).tosend = s.tosend ++ bs ∧ (Serial.send s bs).ssr = s.ssr ∧
      (Serial.send s bs).irqoff = s.irqoff := by
  induction bs generalizing s with
  | nil => simp [Serial.send]
  | cons b rest ih =>
    have h := ih { s with tosend := s.tosend ++ [b] }
    simp only [Serial.send, List.foldl_cons] at h ⊢
    simpa using h

/-- The receive loop on a queue at least as long as the list of rounds: round `k` reads the
`k`-th queued byte and raises `53 + irqoff` once. -/
theorem Serial.receiveLoop_take (steps : List (Nat × Nat)) :
    ∀ (s : Serial), s.ssr &&& 64 = 0 → steps.length ≤ s.tosend.length →
      (∀ p ∈ steps, p.2 &&& 64 = 0) →
      (Serial.receiveLoop s steps).2.1 = s.tosend.take steps.length ∧
        (Serial.receiveLoop s steps).2.2.count (53 + s.irqoff) = steps.length ∧
        (Serial.receiveLoop s steps).1.tosend = s.tosend.drop steps.length ∧
        (Serial.receiveLoop s steps).1.ssr &&& 64 = 0 ∧
        (Serial.receiveLoop s steps).1.irqoff = s.irqoff := by
  induction steps with
  | nil => intro s h _ _; simp [Serial.receiveLoop, h]
  | cons p rest ih =>
    intro s hfull hlen hack
    cases hq : s.tosend with
    | nil => rw [hq] at hlen; simp at hlen
    | cons b q =>
      obtain ⟨t0, t1, _⟩ := Serial.tick_rx s p.1
      obtain ⟨a1, a2, a3, a4⟩ := t1 b q hq hfull
      have h4 : (4 : Nat) &&& 7 = 4 := by decide
      have h5 : (5 : Nat) &&& 7 = 5 := by decide
      have hp : p.2 &&& 64 = 0 := hack p (List.mem_cons_self _ _)
      have r1 : (Serial.receiveRound s p.1 p.2).1.tosend = q := by
        simp [Serial.receiveRound, Serial.read, Serial.write, h4, h5, a3]
      have r2 : (Serial.receiveRound s p.1 p.2).1.ssr = p.2 := by
        simp [Serial.receiveRound, Serial.read, Serial.write, h4, h5]
      have r3 : (Serial.receiveRound s p.1 p.2).1.irqoff = s.irqoff := by
        simp [Serial.receiveRound, Serial.read, Serial.write, h4, h5, t0]
      have r4 : (Serial.receiveRound s p.1 p.2).2.1 = b := by
        simp [Serial.receiveRound, Serial.read, Serial.write, h4, h5, a1]
      have r5 : (Serial.receiveRound s p.1 p.2).2.2 = (Serial.tick s p.1).2 := by
        simp [Serial.receiveRound]
      have hlen2 : rest.length ≤ (Serial.receiveRound s p.1 p.2).1.tosend.length := by
        rw [r1]; rw [hq] at hlen; simpa using hlen
      obtain ⟨i1, i2, i3, i4, i5⟩ := ih (Serial.receiveRound s p.1 p.2).1 (by rw [r2]; exact hp)
        hlen2 (fun x hx => hack x (List.mem_cons_of_mem _ hx))
      simp only [Serial.receiveLoop, List.length_cons, List.take_succ_cons, List.drop_succ_cons,
        List.count_append]
      refine ⟨?_, ?_, ?_, i4, ?_⟩
      · rw [i1, r1, r4]
      · rw [r5, a4, ← r3, i2]; omega
      · rw [i3, r1]
      · rw [i5, r3]

/-- C6: FIFO delivery.  Start from a serial channel with an empty inbound queue and status
bit 6 clear, and call `send(bs)`.  Then `|bs|` rounds of (tick; read receive-data at offset
5; write a status byte with bit 6 clear at offset 4) read exactly the bytes of `bs` in their
order, raise `53 + irqoff` exactly `|bs|` times, and end with `hasPendingRX() == false`;
after `k <= |bs|` rounds `hasPendingRX()` is true exactly when `k < |bs|`. -/
theorem C6_fifo_delivery (s : Serial) (bs : List Nat) (steps : List (Nat × Nat))
    (hq : s.tosend = []) (hfull : s.ssr &&& 64 = 0) (hlen : steps.length = bs.length)
    (hack : ∀ p ∈ steps, p.2 &&& 64 = 0) :
    (Serial.receiveLoop (Serial.send s bs) steps).2.1 = bs ∧
      (Serial.receiveLoop (Serial.send s bs) steps).2.2.count (53 + s.irqoff) = bs.length ∧
      Serial.hasPendingRX (Serial.receiveLoop (Serial.send s bs) steps).1 = false ∧
      ∀ k, k ≤ bs.length →
        Serial.hasPendingRX (Serial.receiveLoop (Serial.send s bs) (steps.take k)).1
          = decide (k < bs.length) := by
  obtain ⟨s1, s2, s3⟩ := Serial.send_spec s bs
  rw [hq, List.nil_append] at s1
  have hfull2 : (Serial.send s bs).ssr &&& 64 = 0 := by rw [s2]; exact hfull
  obtain ⟨a1, a2, a3, _, _⟩ := Serial.receiveLoop_take steps (Serial.send s bs) hfull2
    (by rw [s1, hlen]) hack
  refine ⟨?_, ?_, ?_, ?_⟩
  · rw [a1, s1, hlen, List.take_length]
  · rw [← s3, a2, hlen]
  · simp [Serial.hasPendingRX, a3, s1, hlen]
  · intro k hk
    have hk2 : (steps.take k).length = k := by
      rw [List.length_take]; omega
    obtain ⟨_, _, b3, _, _⟩ := Serial.receiveLoop_take (steps.take k) (Serial.send s bs)
      hfull2 (by rw [s1, hk2]; exact hk) (fun p hp => hack p (List.mem_of_mem_take hp))
    rw [hk2, s1] at b3
    simp only [Serial.hasPendingRX, b3]
    by_cases hlt : k < bs.length
    · have : bs.drop k ≠ [] := by
        intro h
        have := congrArg List.length h
        simp at this
        omega
      cases hd : bs.drop k with
      | nil => exact absurd hd this
      | cons x xs => simp [hlt]
    · have : bs.drop k = [] := List.drop_eq_nil_of_le (by omega)
      simp [this, hlt]

/-- Witness of C6: the bytes `0x41, 0x42` sent to a fresh serial channel and received in two
rounds (ticks at cycles 10 and 20, status acknowledged with `0x80`). -/
theorem C6_fifo_delivery_witness :
    (Serial.receiveLoop (Serial.send exSerial [0x41, 0x42]) [(10, 0x80), (20, 0x80)]).2.1
        = [0x41, 0x42] ∧
      (Serial.receiveLoop (Serial.send exSerial [0x41, 0x42])
        [(10, 0x80), (20, 0x80)]).2.2.count (53 + exSerial.irqoff) = 2 ∧
      Serial.hasPendingRX
        (Serial.receiveLoop (Serial.send exSerial [0x41, 0x42]) [(10, 0x80), (20, 0x80)]).1
        = false :=
  have h := C6_fifo_delivery exSerial [0x41, 0x42] [(10, 0x80), (20, 0x80)] (by decide)
    (by decide) (by decide) (by decide)
  ⟨h.1, h.2.1, h.2.2.1⟩

/-! ## Timer unit: register access -/

theorem Timers.and_255 (x : Nat) : x &&& 255 = x % 256 := Nat.and_pow_two_sub_one_eq_mod x 8

theorem Timers.shr_8 (x : Nat) : x >>> 8 = x / 256 := by
  rw [Nat.shiftRight_eq_div_pow]

theorem Timers.shl_8 (x : Nat) : x <<< 8 = x * 256 := by
  rw [Nat.shiftLeft_eq]

theorem Timers.or_shl_8 (a b : Nat) (ha : a < 256) : a ||| (b <<< 8) = b * 256 + a := by
  have h := @Nat.mul_add_lt_is_or 8 a (by simpa using ha) b
  rw [Nat.or_comm, Timers.shl_8, Nat.mul_comm b 256]
  exact h.symm

theorem Timers.and_ff00 (x : Nat) : x &&& 0xff00 = (x / 256 % 256) * 256 := by
  rw [← Timers.shl_8, ← Timers.and_255, ← Timers.shr_8]
  apply Nat.eq_of_testBit_eq
  intro j
  have h : (0xff00 : Nat) = (2 ^ 8 - 1) <<< 8 := by decide
  have h2 : (255 : Nat) = 2 ^ 8 - 1 := by decide
  rw [h, h2]
  simp only [Nat.testBit_and, Nat.testBit_shiftLeft, Nat.testBit_shiftRight,
    Nat.testBit_two_pow_sub_one]
  by_cases hj : 8 ≤ j
  · have : 8 + (j - 8) = j := by omega
    simp [hj, this]
  · simp [hj]

/-- The high-byte store `(x & 255) | (v << 8)`, truncated to 16 bits, in arithmetic form. -/
theorem Timers.store_hi (x v : Nat) (hv : v < 256) :
    ((x &&& 255) ||| (v <<< 8)) % 65536 = v * 256 + x % 256 := by
  rw [Timers.and_255, Timers.or_shl_8 _ _ (Nat.mod_lt _ (by norm_num))]
  omega

/-- The low-byte store `(x & 0xff00) | (v & 0xff)`, truncated to 16 bits, in arithmetic
form. -/
theorem Timers.store_lo (x v : Nat) (hv : v < 256) :
    ((x &&& 0xff00) ||| (v &&& 0xff)) % 65536 = (x / 256 % 256) * 256 + v := by
  rw [Timers.and_255, Timers.and_ff00, Nat.or_comm, ← Timers.shl_8,
    Timers.or_shl_8 _ _ (Nat.mod_lt _ (by norm_num))]
  omega

theorem Timers.load_hi (x : Nat) : (x >>> 8) &&& 255 = x / 256 % 256 := by
  rw [Timers.and_255, Timers.shr_8]

theorem Timers.selectChannel_block (i a : Nat) (hi : i < 5) (ha : a < 10) :
    Timers.selectChannel (Timers.blockBase i + a) = (some i, a) := by
  interval_cases i <;> interval_cases a <;> decide

/-- A write inside channel `i`'s block is the channel-level store on channel `i`. -/
theorem Timers.write_block (t : Timers) (i a v : Nat) (hi : i < 5) (ha : a < 10) :
    Timers.write t (0xffff60 + Timers.blockBase i + a) v =
      { t with channels := fun k =>
          if k = i then Timers.writeChannel (t.channels i) a v else t.channels k } := by
  have hsel := Timers.selectChannel_block i a hi ha
  have hb : 4 ≤ Timers.blockBase i ∧ Timers.blockBase i + a < 64 := by
    interval_cases i <;> simp [Timers.blockBase] <;> omega
  have e : 0xffff60 + Timers.blockBase i + a - 0xffff60 = Timers.blockBase i + a := by omega
  have n0 : ¬ (0xffff60 + Timers.blockBase i + a < 0xffff60 ∨
      0xffff60 + Timers.blockBase i + a ≥ 0xffffa0) := by omega
  have n1 : Timers.blockBase i + a ≠ 0 := by omega
  have n2 : Timers.blockBase i + a ≠ 1 := by omega
  have n3 : Timers.blockBase i + a ≠ 2 := by omega
  have n4 : Timers.blockBase i + a ≠ 3 := by omega
  simp only [Timers.write, n0, if_false, e, n1, n2, n3, n4, hsel]

/-- A read inside channel `i`'s block is the channel-level load on channel `i`. -/
theorem Timers.read_block (t : Timers) (i a : Nat) (hi : i < 5) (ha : a < 10) :
    Timers.read t (0xffff60 + Timers.blockBase i + a) =
      (Timers.readChannel (t.channels i) a, t) := by
  have hsel := Timers.selectChannel_block i a hi ha
  have hb : 4 ≤ Timers.blockBase i ∧ Timers.blockBase i + a < 64 := by
    interval_cases i <;> simp [Timers.blockBase] <;> omega
  have e : 0xffff60 + Timers.blockBase i + a - 0xffff60 = Timers.blockBase i + a := by omega
  have n0 : ¬ (0xffff60 + Timers.blockBase i + a < 0xffff60 ∨
      0xffff60 + Timers.blockBase i + a ≥ 0xffffa0) := by omega
  have n1 : Timers.blockBase i + a ≠ 0 := by omega
  have n2 : Timers.blockBase i + a ≠ 1 := by omega
  have n3 : Timers.blockBase i + a ≠ 2 := by omega
  have n4 : Timers.blockBase i + a ≠ 3 := by omega
  simp only [Timers.read, n0, if_false, e, n1, n2, n3, n4, hsel]

/-- Channel level: storing `hi` at the high offset and `lo` at the low offset of the `r`-th
16-bit register, in either order, makes the register `hi * 256 + lo`, and the two offsets
load `hi` and `lo`. -/
theorem Timers.writeChannel_pair (c : Channel) (r hi lo : Nat) (hr : r < 3) (hhi : hi < 256)
    (hlo : lo < 256) :
    (Timers.writeChannel (Timers.writeChannel c (4 + 2 * r) hi) (4 + 2 * r + 1) lo).reg16 r
        = hi * 256 + lo ∧
      (Timers.writeChannel (Timers.writeChannel c (4 + 2 * r + 1) lo) (4 + 2 * r) hi).reg16 r
        = hi * 256 + lo ∧
      ∀ d : Channel, d.reg16 r = hi * 256 + lo →
        Timers.readChannel d (4 + 2 * r) = hi ∧ Timers.readChannel d (4 + 2 * r + 1) = lo := by
  interval_cases r <;> refine ⟨?_, ?_, ?_⟩
  all_goals first
    | (intro d hd
       simp only [Channel.reg16] at hd
       simp only [Timers.readChannel, Timers.shr_8, Timers.and_255]
       simp at hd ⊢
       omega)
    | (simp only [Timers.writeChannel, Channel.reg16]
       simp only [Timers.store_hi _ _ hhi, Timers.store_lo _ _ hlo]
       simp
       omega)

/-- C7: 16-bit big-endian register access.  For every channel `i` and bytes `hi`, `lo`,
writing `hi` to the high offset and `lo` to the low offset of the counter (`r = 0`, block
offsets 4, 5), of `compareA` (`r = 1`, offsets 6, 7) or of `compareB` (`r = 2`, offsets
8, 9), in either order, leaves the register equal to `hi * 256 + lo`, and reading the two
offsets then returns `hi` and `lo`. -/
theorem C7_big_endian_registers (t : Timers) (i r hi lo : Nat) (hi5 : i < 5) (hr : r < 3)
    (hhi : hi < 256) (hlo : lo < 256) :
    (((Timers.write (Timers.write t (0xffff60 + Timers.blockBase i + (4 + 2 * r)) hi)
          (0xffff60 + Timers.blockBase i + (4 + 2 * r + 1)) lo).channels i).reg16 r
        = hi * 256 + lo ∧
      (Timers.read (Timers.write (Timers.write t (0xffff60 + Timers.blockBase i + (4 + 2 * r)) hi)
          (0xffff60 + Timers.blockBase i + (4 + 2 * r + 1)) lo)
        (0xffff60 + Timers.blockBase i + (4 + 2 * r))).1 = hi ∧
      (Timers.read (Timers.write (Timers.write t (0xffff60 + Timers.blockBase i + (4 + 2 * r)) hi)
          (0xffff60 + Timers.blockBase i + (4 + 2 * r + 1)) lo)
        (0xffff60 + Timers.blockBase i + (4 + 2 * r + 1))).1 = lo) ∧
    (((Timers.write (Timers.write t (0xffff60 + Timers.blockBase i + (4 + 2 * r + 1)) lo)
          (0xffff60 + Timers.blockBase i + (4 + 2 * r)) hi).channels i).reg16 r
        = hi * 256 + lo ∧
      (Timers.read (Timers.write (Timers.write t (0xffff60 + Timers.blockBase i + (4 + 2 * r + 1)) lo)
          (0xffff60 + Timers.blockBase i + (4 + 2 * r)) hi)
        (0xffff60 + Timers.blockBase i + (4 + 2 * r))).1 = hi ∧
      (Timers.read (Timers.write (Timers.write t (0xffff60 + Timers.blockBase i + (4 + 2 * r + 1)) lo)
          (0xffff60 + Timers.blockBase i + (4 + 2 * r)) hi)
        (0xffff60 + Timers.blockBase i + (4 + 2 * r + 1))).1 = lo) := by
  have ha : 4 + 2 * r < 10 := by omega
  have hb : 4 + 2 * r + 1 < 10 := by omega
  obtain ⟨p1, p2, p3⟩ := Timers.writeChannel_pair (t.channels i) r hi lo hr hhi hlo
  simp only [Timers.write_block _ i _ _ hi5 ha, Timers.write_block _ i _ _ hi5 hb,
    Timers.read_block _ i _ hi5 ha, Timers.read_block _ i _ hi5 hb, if_true]
  exact ⟨⟨p1, p3 _ p1⟩, ⟨p2, p3 _ p2⟩⟩

/-- Witness of C7: `0x12` at `0xFFFF68` and `0x34` at `0xFFFF69` (counter high and low of
channel 0) give `0x1234`, in either order. -/
theorem C7_big_endian_registers_witness :
    ((Timers.write (Timers.write Timers.init 0xffff68 0x12) 0xffff69 0x34).channels 0).tcnt
        = 0x1234 ∧
      ((Timers.write (Timers.write Timers.init 0xffff69 0x34) 0xffff68 0x12).channels 0).tcnt
        = 0x1234 := by
  have h := C7_big_endian_registers Timers.init 0 0 0x12 0x34 (by decide) (by decide)
    (by decide) (by decide)
  simpa [Timers.blockBase, Channel.reg16] using And.intro h.1.1 h.2.1

/-- C8: timer window isolation.  For every address outside `[0xFFFF60, 0xFFFFA0)`,
`Timers::read` returns 0 and leaves the timer unit as it was, and `Timers::write` of any
value leaves the whole timer unit (global bytes, channels, scratch array, snapshot) as it
was. -/
theorem C8_window_isolation (t : Timers) (address v : Nat)
    (hout : address < 0xffff60 ∨ 0xffffa0 ≤ address) :
    (Timers.read t address).1 = 0 ∧ (Timers.read t address).2 = t ∧
      Timers.write t address v = t := by
  have h : address < 0xffff60 ∨ address ≥ 0xffffa0 := hout
  simp [Timers.read, Timers.write, h]

/-- Witness of C8: the first address past the window. -/
theorem C8_window_isolation_witness :
    (Timers.read exFreeRun 0xffffa0).1 = 0 ∧ (Timers.read exFreeRun 0xffffa0).2 = exFreeRun ∧
      Timers.write exFreeRun 0xffffa0 0x5a = exFreeRun :=
  C8_window_isolation exFreeRun 0xffffa0 0x5a (Or.inr (by decide))

theorem Timers.set_same (t : Timers) (i : Nat) :
    ({ t with channels := fun k => if k = i then t.channels i else t.channels k } : Timers)
      = t := by
  have h : (fun k => if k = i then t.channels i else t.channels k) = t.channels := by
    funext k
    split_ifs with hk
    · rw [hk]
    · rfl
  rw [h]

/-- Channel level: a byte stored at a block offset other than 1 is loaded back from the same
offset; a store at offset 1 changes nothing and the load there gives 0. -/
theorem Timers.readChannel_writeChannel (c : Channel) (a v : Nat) (ha : a < 10)
    (hv : v < 256) :
    (a ≠ 1 → Timers.readChannel (Timers.writeChannel c a v) a = v) ∧
      (a = 1 → Timers.writeChannel c a v = c ∧
        Timers.readChannel (Timers.writeChannel c a v) a = 0) := by
  interval_cases a
  all_goals
    simp only [Timers.writeChannel, Timers.readChannel, Timers.store_hi _ _ hv,
      Timers.store_lo _ _ hv]
    simp only [Timers.shr_8, Timers.and_255]
    simp
  all_goals omega

/-- Every window offset from 4 on is either in a channel block or outside all of them. -/
theorem Timers.offset_cases (off : Nat) (h4 : 4 ≤ off) (hoff : off < 64) :
    (∃ i a, i < 5 ∧ a < 10 ∧ off = Timers.blockBase i + a) ∨
      (((0x2c ≤ off ∧ off < 0x32) ∨ 0x3c ≤ off) ∧ Timers.selectChannel off = (none, off)) := by
  by_cases h0 : off < 0xe
  · exact Or.inl ⟨0, off - 4, by decide, by omega, by simp [Timers.blockBase]; omega⟩
  by_cases h1 : off < 0x18
  · exact Or.inl ⟨1, off - 0xe, by decide, by omega, by simp [Timers.blockBase]; omega⟩
  by_cases h2 : off < 0x22
  · exact Or.inl ⟨2, off - 0x18, by decide, by omega, by simp [Timers.blockBase]; omega⟩
  by_cases h3 : off < 0x2c
  · exact Or.inl ⟨3, off - 0x22, by decide, by omega, by simp [Timers.blockBase]; omega⟩
  by_cases h5 : off < 0x32
  · refine Or.inr ⟨Or.inl ⟨by omega, h5⟩, ?_⟩
    simp only [Timers.selectChannel]
    split_ifs <;> first | rfl | omega
  by_cases h6 : off < 0x3c
  · exact Or.inl ⟨4, off - 0x32, by decide, by omega, by simp [Timers.blockBase]; omega⟩
  · refine Or.inr ⟨Or.inr (by omega), ?_⟩
    simp only [Timers.selectChannel]
    split_ifs <;> first | rfl | omega

/-- C9: timer register round trip.  For every window offset `off < 64` and byte `v`, a read
of `0xFFFF60 + off` right after a write of `v` there returns `v`, except at the five
input-capture offsets `0x05, 0x0F, 0x19, 0x23, 0x33`, where the write changes no state and
the read returns 0; at the gap offsets `0x2C..0x31` and at `0x3C..0x3F` the byte is stored
in, and returned from, the scratch array at index `off`. -/
theorem C9_register_round_trip (t : Timers) (off v : Nat) (hoff : off < 64) (hv : v < 256) :
    (off ∉ [0x05, 0x0f, 0x19, 0x23, 0x33] →
        (Timers.read (Timers.write t (0xffff60 + off) v) (0xffff60 + off)).1 = v) ∧
      (off ∈ [0x05, 0x0f, 0x19, 0x23, 0x33] →
        Timers.write t (0xffff60 + off) v = t ∧
          (Timers.read (Timers.write t (0xffff60 + off) v) (0xffff60 + off)).1 = 0) ∧
      ((0x2c ≤ off ∧ off < 0x32) ∨ 0x3c ≤ off →
        (Timers.write t (0xffff60 + off) v).space off = v ∧
          (Timers.read (Timers.write t (0xffff60 + off) v) (0xffff60 + off)).1 =
            (Timers.write t (0xffff60 + off) v).space off) := by
  have n0 : ¬ (0xffff60 + off < 0xffff60 ∨ 0xffff60 + off ≥ 0xffffa0) := by omega
  have e : 0xffff60 + off - 0xffff60 = off := by omega
  by_cases h4 : off < 4
  · have hmem : off ∉ [0x05, 0x0f, 0x19, 0x23, 0x33] := by
      simp only [List.mem_cons, List.mem_singleton, List.not_mem_nil, or_false]; omega
    refine ⟨fun _ => ?_, fun h => absurd h hmem, fun h => False.elim (by omega)⟩
    interval_cases off <;> simp [Timers.read, Timers.write]
  · rcases Timers.offset_cases off (by omega) hoff with ⟨i, a, hi, ha, rfl⟩ | ⟨hgap, hsel⟩
    · obtain ⟨q1, q2⟩ := Timers.readChannel_writeChannel (t.channels i) a v ha hv
      have hb : Timers.blockBase i = 0x04 ∨ Timers.blockBase i = 0x0e ∨
          Timers.blockBase i = 0x18 ∨ Timers.blockBase i = 0x22 ∨
          Timers.blockBase i = 0x32 := by
        interval_cases i <;> simp [Timers.blockBase]
      have hicr : Timers.blockBase i + a ∈ [0x05, 0x0f, 0x19, 0x23, 0x33] ↔ a = 1 := by
        simp only [List.mem_cons, List.mem_singleton, List.not_mem_nil, or_false]
        omega
      rw [← Nat.add_assoc, Timers.write_block t i a v hi ha, Timers.read_block _ i a hi ha]
      simp only [if_true]
      refine ⟨fun h => q1 (fun h1 => h (hicr.mpr h1)), fun h => ?_,
        fun h => False.elim (by omega)⟩
      obtain ⟨w1, w2⟩ := q2 (hicr.mp h)
      refine ⟨?_, w2⟩
      rw [w1]
      exact Timers.set_same t i
    · have hmem : off ∉ [0x05, 0x0f, 0x19, 0x23, 0x33] := by
        simp only [List.mem_cons, List.mem_singleton, List.not_mem_nil, or_false]; omega
      have m0 : off ≠ 0 := by omega
      have m1 : off ≠ 1 := by omega
      have m2 : off ≠ 2 := by omega
      have m3 : off ≠ 3 := by omega
      have hw : Timers.write t (0xffff60 + off) v =
          { t with space := fun k => if k = off then v else t.space k } := by
        simp only [Timers.write, n0, if_false, e, m0, m1, m2, m3, hsel]
      have hr : ∀ u : Timers, (Timers.read u (0xffff60 + off)).1 = u.space off := by
        intro u
        simp only [Timers.read, n0, if_false, e, m0, m1, m2, m3, hsel]
      refine ⟨fun _ => ?_, fun h => absurd h hmem, fun _ => ⟨?_, hr _⟩⟩
      · rw [hr, hw]; simp
      · rw [hw]; simp

/-- Witness of C9: the byte `0x5A` written to and read from the gap offset `0x2C`, on a
timer unit with a running channel. -/
theorem C9_register_round_trip_witness :
    (Timers.read (Timers.write exFreeRun (0xffff60 + 0x2c) 0x5a) (0xffff60 + 0x2c)).1 = 0x5a ∧
      (Timers.write exFreeRun (0xffff60 + 0x2c) 0x5a).space 0x2c = 0x5a :=
  have h := C9_register_round_trip exFreeRun 0x2c 0x5a (by decide) (by decide)
  ⟨h.1 (by decide), (h.2.2 (Or.inl (by decide))).1⟩

/-- C10: reads are side-effect free.  For every address, `Timers::read` and `Serial::read`
leave the device as it was, so a second read returns the same byte; reading a timer
channel's status register (block offset 3) returns the stored `tsr` and reading the serial
status register (offset 4) returns the stored `ssr`, both times. -/
theorem C10_reads_are_pure (t : Timers) (s : Serial) (address i : Nat) (hi : i < 5) :
    (Timers.read t address).2 = t ∧ (Serial.read s address).2 = s ∧
      (Timers.read (Timers.read t address).2 address).1 = (Timers.read t address).1 ∧
      (Serial.read (Serial.read s address).2 address).1 = (Serial.read s address).1 ∧
      (Timers.read t (0xffff60 + Timers.blockBase i + 3)).1 = (t.channels i).tsr ∧
      (Timers.read (Timers.read t (0xffff60 + Timers.blockBase i + 3)).2
        (0xffff60 + Timers.blockBase i + 3)).1 = (t.channels i).tsr ∧
      (Serial.read s 4).1 = s.ssr ∧
      (Serial.read (Serial.read s 4).2 4).1 = s.ssr := by
  have ht : ∀ a, (Timers.read t a).2 = t := by
    intro a
    simp only [Timers.read]
    split_ifs <;> first | (split <;> rfl) | rfl
  have hs : ∀ a, (Serial.read s a).2 = s := by
    intro a
    simp only [Serial.read]
    split_ifs <;> rfl
  have h3 : (Timers.read t (0xffff60 + Timers.blockBase i + 3)).1 = (t.channels i).tsr := by
    rw [Timers.read_block t i 3 hi (by decide)]
    simp [Timers.readChannel]
  have h4 : (Serial.read s 4).1 = s.ssr := by
    have h : (4 : Nat) &&& 7 = 4 := by decide
    simp [Serial.read, h]
  exact ⟨ht address, hs address, by rw [ht], by rw [hs], h3, by rw [ht]; exact h3, h4,
    by rw [hs]; exact h4⟩

/-- Witness of C10: the status register of channel 0 and the serial status register, each
read twice. -/
theorem C10_reads_are_pure_witness :
    (Timers.read exFreeRun 0xffff67).2 = exFreeRun ∧
      (Serial.read exSerial 0xffff67).2 = exSerial ∧
      (Timers.read (Timers.read exFreeRun 0xffff67).2 0xffff67).1
        = (Timers.read exFreeRun 0xffff67).1 ∧
      (Serial.read (Serial.read exSerial 0xffff67).2 0xffff67).1
        = (Serial.read exSerial 0xffff67).1 ∧
      (Timers.read exFreeRun (0xffff60 + Timers.blockBase 0 + 3)).1
        = (exFreeRun.channels 0).tsr ∧
      (Timers.read (Timers.read exFreeRun (0xffff60 + Timers.blockBase 0 + 3)).2
        (0xffff60 + Timers.blockBase 0 + 3)).1 = (exFreeRun.channels 0).tsr ∧
      (Serial.read exSerial 4).1 = exSerial.ssr ∧
      (Serial.read (Serial.read exSerial 4).2 4).1 = exSerial.ssr :=
  C10_reads_are_pure exFreeRun exSerial 0xffff67 0 (by decide)

/-! ## Timer unit: halted channels -/

/-- A channel whose start bit is clear, whose PWM bit is set or whose external-clock bit is
set is skipped by the loop body. -/
theorem Timers.tickChannel_skipped (cycles : Nat) (t : Timers) (i : Nat)
    (h : t.tstr &&& (1 <<< i) = 0 ∨ t.tmdr &&& (1 <<< i) ≠ 0 ∨
      (t.channels i).tcr &&& 4 ≠ 0) :
    Timers.tickChannel cycles t i = (t, []) := by
  simp only [Timers.tickChannel]
  rcases h with h | h | h
  · simp [h]
  · split_ifs <;> rfl
  · split_ifs <;> rfl

/-- When no start bit is set, a tick only records the snapshot. -/
theorem Timers.tick_all_halted (cycles : Nat) (t : Timers)
    (h : ∀ j, j < 5 → t.tstr &&& (1 <<< j) = 0) :
    Timers.tick t cycles = ({ t with lastCycles := cycles }, []) := by
  have hr : List.range 5 = [0, 1, 2, 3, 4] := by decide
  unfold Timers.tick
  rw [hr]
  simp only [List.foldl_cons, List.foldl_nil,
    Timers.tickChannel_halted cycles t 0 (h 0 (by decide)),
    Timers.tickChannel_halted cycles t 1 (h 1 (by decide)),
    Timers.tickChannel_halted cycles t 2 (h 2 (by decide)),
    Timers.tickChannel_halted cycles t 3 (h 3 (by decide)),
    Timers.tickChannel_halted cycles t 4 (h 4 (by decide)), List.append_nil]

/-- C11: halted channels do not advance.  For every channel `i < 5` and every cycle value,
if start bit `i` is clear, or PWM mode bit `i` is set, or the channel's control bit 2
(external clock) is set, a tick leaves channel `i` (counter, status and every other
register of it) unchanged and raises none of `24 + 4i`, `25 + 4i`, `26 + 4i`; and on a
freshly constructed timer unit (`tstr = 0xC0`) a tick changes nothing but the cycle
snapshot and raises no interrupt. -/
theorem C11_halted_channels (t : Timers) (cycles i : Nat) (hi : i < 5)
    (hhalt : t.tstr &&& (1 <<< i) = 0 ∨ t.tmdr &&& (1 <<< i) ≠ 0 ∨
      (t.channels i).tcr &&& 4 ≠ 0) :
    ((Timers.tick t cycles).1.channels i).tcnt = (t.channels i).tcnt ∧
      ((Timers.tick t cycles).1.channels i).tsr = (t.channels i).tsr ∧
      (Timers.tick t cycles).1.channels i = t.channels i ∧
      (24 + i * 4) ∉ (Timers.tick t cycles).2 ∧
      (25 + i * 4) ∉ (Timers.tick t cycles).2 ∧
      (26 + i * 4) ∉ (Timers.tick t cycles).2 ∧
      Timers.tick Timers.init cycles = ({ Timers.init with lastCycles := cycles }, []) := by
  have hs := Timers.tickChannel_skipped cycles t i hhalt
  have hc : (Timers.tick t cycles).1.channels i = t.channels i := by
    rw [Timers.tick_channel cycles t i hi, hs]
  have hn : ∀ v, v = 24 + i * 4 ∨ v = 25 + i * 4 ∨ v = 26 + i * 4 →
      v ∉ (Timers.tick t cycles).2 := by
    intro v hv
    rw [← List.count_eq_zero, Timers.tick_count_own cycles t i v hi hv, hs]
    rfl
  refine ⟨by rw [hc], by rw [hc], hc, hn _ (Or.inl rfl), hn _ (Or.inr (Or.inl rfl)),
    hn _ (Or.inr (Or.inr rfl)), ?_⟩
  exact Timers.tick_all_halted cycles Timers.init (by decide)

/-- Witness of C11: channel 1 of `exFreeRun` has its start bit clear. -/
theorem C11_halted_channels_witness :
    (Timers.tick exFreeRun 1000).1.channels 1 = exFreeRun.channels 1 ∧
      (24 + 1 * 4) ∉ (Timers.tick exFreeRun 1000).2 :=
  have h := C11_halted_channels exFreeRun 1000 1 (by decide) (Or.inl (by decide))
  ⟨h.2.2.1, h.2.2.2.1⟩

/-! ## Serial channel: the transmit timer -/

/-- The transmit-timer part of `Serial::tick`: the timer, the sample and the number of times
`54 + irqoff` is raised after the tick. -/
theorem Serial.tick_tx (s : Serial) (cycles : Nat) :
    (s.txrtimer = 0 →
      (Serial.tick s cycles).1.txrtimer = s.txrtimer ∧
        (Serial.tick s cycles).1.lastcycles = s.lastcycles ∧
        (Serial.tick s cycles).2.count (54 + s.irqoff) = 0) ∧
    (s.txrtimer ≠ 0 →
      (Serial.tick s cycles).1.lastcycles = cycles ∧
        (toInt32 (s.txrtimer -
            toInt32 (((cycles + 2 ^ 64 - s.lastcycles) % 2 ^ 64 : Nat) : Int)) ≤ 0 →
          (Serial.tick s cycles).1.txrtimer = s.clocktime ∧
            (Serial.tick s cycles).2.count (54 + s.irqoff) =
              if s.scr &&& 128 ≠ 0 then 1 else 0) ∧
        (0 < toInt32 (s.txrtimer -
            toInt32 (((cycles + 2 ^ 64 - s.lastcycles) % 2 ^ 64 : Nat) : Int)) →
          (Serial.tick s cycles).1.txrtimer =
              toInt32 (s.txrtimer -
                toInt32 (((cycles + 2 ^ 64 - s.lastcycles) % 2 ^ 64 : Nat) : Int)) ∧
            (Serial.tick s cycles).2.count (54 + s.irqoff) = 0)) := by
  have e : (53 : Int) + s.irqoff ≠ 54 + s.irqoff := by omega
  refine ⟨fun h0 => ?_, fun hne => ⟨?_, fun hle => ?_, fun hlt => ?_⟩⟩
  · simp only [Serial.tick, h0, ne_eq, not_true_eq_false, if_false]
    split
    · simp [h0]
    · split_ifs <;> simp [List.count_cons, e, h0]
  · simp only [Serial.tick, hne, ne_eq, not_false_eq_true, if_true]
    split_ifs <;> split <;> rfl
  · simp only [Serial.tick, hne, ne_eq, not_false_eq_true, if_true, hle]
    split <;> (try split_ifs) <;> simp_all [List.count_cons, List.count_append, e]
  · have hnle : ¬ toInt32 (s.txrtimer -
        toInt32 (((cycles + 2 ^ 64 - s.lastcycles) % 2 ^ 64 : Nat) : Int)) ≤ 0 := by omega
    simp only [Serial.tick, hne, ne_eq, not_false_eq_true, if_true, hnle, if_false]
    split <;> (try split_ifs) <;> simp_all [List.count_cons, List.count_append, e]

/-- With the timer in the range of a positive `int`, at most `2^31 - 1` cycles elapsed and
no wrap of the cycle counter, the two conversions of the countdown are exact. -/
theorem Serial.countdown_exact (t : Int) (cycles last : Nat) (ht0 : 0 < t) (ht : t < 2 ^ 31)
    (hc : cycles < 2 ^ 64) (hl : last ≤ cycles) (hd : cycles - last < 2 ^ 31) :
    toInt32 (t - toInt32 (((cycles + 2 ^ 64 - last) % 2 ^ 64 : Nat) : Int))
      = t - ((cycles : Int) - (last : Int)) := by
  simp only [toInt32]
  norm_num at ht hc hd ⊢
  omega

theorem Serial.send_rdr (s : Serial) (bs : List Nat) : (Serial.send s bs).rdr = s.rdr := by
  induction bs generalizing s with
  | nil => simp [Serial.send]
  | cons b rest ih =>
    have h := ih { s with tosend := s.tosend ++ [b] }
    simp only [Serial.send, List.foldl_cons] at h ⊢
    simpa using h

theorem Serial.write_rdr (s : Serial) (address v : Nat) :
    (Serial.write s address v).1.rdr = s.rdr := by
  simp only [Serial.write]
  split_ifs <;> rfl

/-- C13: receive-data protection.  If status bit 6 (receive-full) is set, then after a read
at any address, a write of any value to any address (offset 5 included), a `send` of any
bytes or a tick at any cycle value, receive-data is what it was; and a write to the
receive-data register (`address & 7 == 5`) changes no state and calls no callback. -/
theorem C13_receive_data_protected (s : Serial) (address v cycles : Nat) (bs : List Nat) :
    (s.ssr &&& 64 ≠ 0 →
      (Serial.read s address).2.rdr = s.rdr ∧
        (Serial.write s address v).1.rdr = s.rdr ∧
        (Serial.send s bs).rdr = s.rdr ∧
        (Serial.tick s cycles).1.rdr = s.rdr) ∧
      (address &&& 7 = 5 → Serial.write s address v = (s, [])) := by
  refine ⟨fun hfull => ⟨?_, Serial.write_rdr s address v, Serial.send_rdr s bs, ?_⟩, ?_⟩
  · simp only [Serial.read]
    split_ifs <;> rfl
  · exact ((Serial.tick_rx s cycles).2.2 (Or.inl hfull)).1
  · intro ha
    simp [Serial.write, ha]

/-- Witness of C13: a fresh serial channel that has received `0x41` (receive-full set) keeps
it through a write to offset 5, a `send` and a tick. -/
theorem C13_receive_data_protected_witness :
    (Serial.write (Serial.tick (Serial.send exSerial [0x41]) 10).1 5 0x99).1.rdr = 0x41 ∧
      (Serial.tick (Serial.send (Serial.tick (Serial.send exSerial [0x41]) 10).1 [0x42])
        20).1.rdr = 0x41 :=
  have h := (C13_receive_data_protected (Serial.tick (Serial.send exSerial [0x41]) 10).1 5
    0x99 20 [0x42]).1 (by decide)
  have h2 := (C13_receive_data_protected
    (Serial.send (Serial.tick (Serial.send exSerial [0x41]) 10).1 [0x42]) 5 0x99 20 []).1
    (by decide)
  have e : (Serial.tick (Serial.send exSerial [0x41]) 10).1.rdr = 0x41 := by decide
  ⟨h.2.1.trans e, h2.2.2.2.trans (h.2.2.1.trans e)⟩

/-- C15: serial transmit countdown.  Let `t` be the transmit timer (an `int`) and
`d = cycles - lastcycles` the elapsed cycles, `0 <= d < 2^31`.  If `t > 0` and `t - d <= 0`
the tick makes the timer `clocktime` and raises `54 + irqoff` exactly once if control bit 7
is set and not at all otherwise; if `t > 0` and `t - d > 0` the timer becomes `t - d` and
`54 + irqoff` is not raised; in both cases `lastcycles` becomes `cycles`.  If `t == 0`,
`54 + irqoff` is not raised and the timer and `lastcycles` are unchanged. -/
theorem C15_transmit_countdown (s : Serial) (cycles : Nat) (hc : cycles < 2 ^ 64)
    (hl : s.lastcycles ≤ cycles) (hd : cycles - s.lastcycles < 2 ^ 31)
    (ht : s.txrtimer < 2 ^ 31) :
    (0 < s.txrtimer → s.txrtimer - ((cycles : Int) - (s.lastcycles : Int)) ≤ 0 →
      (Serial.tick s cycles).1.txrtimer = s.clocktime ∧
        (s.scr &&& 128 ≠ 0 → (Serial.tick s cycles).2.count (54 + s.irqoff) = 1) ∧
        (s.scr &&& 128 = 0 → (Serial.tick s cycles).2.count (54 + s.irqoff) = 0) ∧
        (Serial.tick s cycles).1.lastcycles = cycles) ∧
    (0 < s.txrtimer → 0 < s.txrtimer - ((cycles : Int) - (s.lastcycles : Int)) →
      (Serial.tick s cycles).1.txrtimer
          = s.txrtimer - ((cycles : Int) - (s.lastcycles : Int)) ∧
        (Serial.tick s cycles).2.count (54 + s.irqoff) = 0 ∧
        (Serial.tick s cycles).1.lastcycles = cycles) ∧
    (s.txrtimer = 0 →
      (Serial.tick s cycles).2.count (54 + s.irqoff) = 0 ∧
        (Serial.tick s cycles).1.txrtimer = 0 ∧
        (Serial.tick s cycles).1.lastcycles = s.lastcycles) := by
  obtain ⟨h0, hne⟩ := Serial.tick_tx s cycles
  refine ⟨fun hpos hle => ?_, fun hpos hgt => ?_, fun hz => ?_⟩
  · have hex := Serial.countdown_exact s.txrtimer cycles s.lastcycles hpos ht hc hl hd
    obtain ⟨a1, a2, _⟩ := hne (ne_of_gt hpos)
    rw [hex] at a2
    obtain ⟨b1, b2⟩ := a2 hle
    refine ⟨b1, fun h7 => ?_, fun h7 => ?_, a1⟩
    · rw [b2]; simp [h7]
    · rw [b2]; simp [h7]
  · have hex := Serial.countdown_exact s.txrtimer cycles s.lastcycles hpos ht hc hl hd
    obtain ⟨a1, _, a3⟩ := hne (ne_of_gt hpos)
    rw [hex] at a3
    obtain ⟨b1, b2⟩ := a3 hgt
    exact ⟨b1, b2, a1⟩
  · obtain ⟨a1, a2, a3⟩ := h0 hz
    exact ⟨a3, a1.trans hz, a2⟩

/-- The write `Serial.write exSerial 3 0x55` arms the transmit timer of a fresh serial
channel to `clocktime = 5000` with `lastcycles = 0`; the tick at cycle 100 counts it down to
4900, and the tick at cycle 5000 fires it. -/
theorem C15_transmit_countdown_witness :
    (Serial.tick (Serial.write exSerial 3 0x55).1 100).1.txrtimer = 5000 - (100 - 0) ∧
      (Serial.tick (Serial.write exSerial 3 0x55).1 100).1.lastcycles = 100 ∧
      (Serial.tick (Serial.write exSerial 3 0x55).1 5000).1.txrtimer = 5000 :=
  have h1 := (C15_transmit_countdown (Serial.write exSerial 3 0x55).1 100 (by decide)
    (by decide) (by decide) (by decide)).2.1 (by decide) (by decide)
  have h2 := (C15_transmit_countdown (Serial.write exSerial 3 0x55).1 5000 (by decide)
    (by decide) (by decide) (by decide)).1 (by decide) (by decide)
  ⟨h1.1, h1.2.2, h2.1⟩

/-! ## Timer unit: counting -/

/-- A sub-tick changes only the counter and the status of a channel. -/
theorem Timers.subTick_regs (i : Nat) (c : Channel) :
    (Timers.subTick i c).1.gra = c.gra ∧ (Timers.subTick i c).1.grb = c.grb ∧
      (Timers.subTick i c).1.tcr = c.tcr ∧ (Timers.subTick i c).1.tier = c.tier := by
  simp [Timers.subTick]

/-- The inner loop changes only the counter and the status of a channel. -/
theorem Timers.runChannel_regs (i n : Nat) (c : Channel) :
    (Timers.runChannel i n c).1.gra = c.gra ∧ (Timers.runChannel i n c).1.grb = c.grb ∧
      (Timers.runChannel i n c).1.tcr = c.tcr ∧ (Timers.runChannel i n c).1.tier = c.tier := by
  induction n generalizing c with
  | zero => simp [Timers.runChannel]
  | succ k ih =>
    obtain ⟨a1, a2, a3, a4⟩ := ih (Timers.subTick i c).1
    obtain ⟨b1, b2, b3, b4⟩ := Timers.subTick_regs i c
    simp only [Timers.runChannel]
    exact ⟨a1.trans b1, a2.trans b2, a3.trans b3, a4.trans b4⟩

/-- The counter after one sub-tick: 0 on a clearing compare match, the 16-bit successor
otherwise. -/
theorem Timers.subTick_tcnt (i : Nat) (c : Channel) :
    (Timers.subTick i c).1.tcnt =
      if c.tcnt = c.grb ∧ c.tcr &&& 0x60 = 0x40 then 0
      else if c.tcnt = c.gra ∧ c.tcr &&& 0x60 = 0x20 then 0
      else (c.tcnt + 1) % 65536 := by
  simp only [Timers.subTick]
  split_ifs <;> simp_all

/-- The interrupts of one sub-tick, in the order compare-A, compare-B, overflow. -/
theorem Timers.subTick_irqs (i : Nat) (c : Channel) :
    (Timers.subTick i c).2 =
      (if c.tcnt = c.gra ∧ c.tier &&& 1 ≠ 0 then [24 + i * 4] else []) ++
      (if c.tcnt = c.grb ∧ c.tier &&& 2 ≠ 0 then [25 + i * 4] else []) ++
      (if c.tcnt = 0 ∧ c.tier &&& 4 ≠ 0 then [26 + i * 4] else []) := by
  simp only [Timers.subTick]
  split_ifs <;> simp_all

/-- The status after one sub-tick: bits 0, 1 and 2 are ORed in on their events. -/
theorem Timers.subTick_tsr (i : Nat) (c : Channel) :
    (Timers.subTick i c).1.tsr =
      ((c.tsr ||| (if c.tcnt = c.gra then 1 else 0)) |||
        (if c.tcnt = c.grb then 2 else 0)) |||
        (if c.tcnt = 0 ∧ c.tier &&& 4 ≠ 0 then 4 else 0) := by
  simp only [Timers.subTick]
  split_ifs <;> simp_all

/-- Free-running mode: `n` sub-ticks add `n` to the counter modulo 65536. -/
theorem Timers.runChannel_free (i n : Nat) (c : Channel) (hA : c.tcr &&& 0x60 ≠ 0x20)
    (hB : c.tcr &&& 0x60 ≠ 0x40) (hcnt : c.tcnt < 65536) :
    (Timers.runChannel i n c).1.tcnt = (c.tcnt + n) % 65536 := by
  induction n generalizing c with
  | zero => simp [Timers.runChannel, Nat.mod_eq_of_lt hcnt]
  | succ k ih =>
    obtain ⟨_, _, b3, _⟩ := Timers.subTick_regs i c
    have hstep : (Timers.subTick i c).1.tcnt = (c.tcnt + 1) % 65536 := by
      rw [Timers.subTick_tcnt]
      simp [hA, hB]
    have h := ih (Timers.subTick i c).1 (by rw [b3]; exact hA) (by rw [b3]; exact hB)
      (by rw [hstep]; exact Nat.mod_lt _ (by norm_num))
    simp only [Timers.runChannel]
    rw [h, hstep]
    omega

/-- C16: free-running wrap.  For every running channel `i` whose auto-clear mode bits
(`tcr & 0x60`) are neither `0x20` nor `0x40`, after a tick with `n` elapsed sub-ticks the
counter is `(old counter + n) mod 65536`, whatever the compare registers and interrupt
enables are. -/
theorem C16_free_running_wrap (t : Timers) (cycles i n : Nat) (hi : i < 5)
    (hstart : t.tstr &&& (1 <<< i) ≠ 0)
    (hmode : t.tmdr &&& (1 <<< i) = 0)
    (hext : (t.channels i).tcr &&& 4 = 0)
    (hA : (t.channels i).tcr &&& 0x60 ≠ 0x20)
    (hB : (t.channels i).tcr &&& 0x60 ≠ 0x40)
    (hcnt : (t.channels i).tcnt < 65536)
    (hn : Timers.elapsed cycles t.lastCycles ((t.channels i).tcr &&& 3) = n) :
    ((Timers.tick t cycles).1.channels i).tcnt = ((t.channels i).tcnt + n) % 65536 := by
  rw [Timers.tick_channel cycles t i hi,
    (Timers.tickChannel_running_channel cycles t i hstart hmode hext).1, hn]
  exact Timers.runChannel_free i n (t.channels i) hA hB hcnt

/-- Witness of C16: `exWrap` (counter `0xFFFF`, free-running) after 3 elapsed cycles. -/
theorem C16_free_running_wrap_witness :
    ((Timers.tick exWrap 3).1.channels 0).tcnt = (0xffff + 3) % 65536 :=
  C16_free_running_wrap exWrap 3 0 3 (by decide) (by decide) (by decide) (by decide)
    (by decide) (by decide) (by decide) (by decide)

/-- One step of the quotient and remainder by `g + 1`. -/
theorem Timers.divmod_step (a g : Nat) :
    (a % (g + 1) = g → (a + 1) % (g + 1) = 0 ∧ (a + 1) / (g + 1) = a / (g + 1) + 1) ∧
      (a % (g + 1) ≠ g →
        (a + 1) % (g + 1) = a % (g + 1) + 1 ∧ (a + 1) / (g + 1) = a / (g + 1)) := by
  have h1 : (g + 1) * (a / (g + 1)) + a % (g + 1) = a := Nat.div_add_mod a (g + 1)
  have h2 : a % (g + 1) < g + 1 := Nat.mod_lt a (Nat.succ_pos g)
  have hpos : 0 < g + 1 := Nat.succ_pos g
  generalize hq : a / (g + 1) = q at h1 ⊢
  generalize hr : a % (g + 1) = r at h1 h2 ⊢
  constructor
  · intro h
    have e : a + 1 = (g + 1) * (q + 1) := by
      rw [Nat.mul_add, Nat.mul_one]
      generalize (g + 1) * q = p at h1 ⊢
      omega
    rw [e]
    exact ⟨Nat.mul_mod_right _ _, Nat.mul_div_cancel_left _ hpos⟩
  · intro h
    have hlt : r + 1 < g + 1 := by omega
    have e : a + 1 = (r + 1) + (g + 1) * q := by
      generalize (g + 1) * q = p at h1 ⊢
      omega
    constructor
    · rw [e, Nat.add_mul_mod_self_left, Nat.mod_eq_of_lt hlt]
    · rw [e, Nat.add_mul_div_left _ _ hpos, Nat.div_eq_of_lt hlt, Nat.zero_add]

/-- Clear-on-A mode with the counter at most `gra`: after `n` sub-ticks the counter is
`(tcnt + n) mod (gra + 1)`, and if the compare-A interrupt is enabled it has been raised
`(tcnt + n) / (gra + 1)` times. -/
theorem Timers.runChannel_clearA (i n : Nat) (c : Channel) (hA : c.tcr &&& 0x60 = 0x20)
    (hle : c.tcnt ≤ c.gra) (hgra : c.gra < 65536) :
    (Timers.runChannel i n c).1.tcnt = (c.tcnt + n) % (c.gra + 1) ∧
      (c.tier &&& 1 ≠ 0 →
        (Timers.runChannel i n c).2.count (24 + i * 4) = (c.tcnt + n) / (c.gra + 1)) := by
  induction n generalizing c with
  | zero =>
    have hlt : c.tcnt < c.gra + 1 := by omega
    simp [Timers.runChannel, Nat.mod_eq_of_lt hlt, Nat.div_eq_of_lt hlt]
  | succ k ih =>
    obtain ⟨b1, _, b3, b4⟩ := Timers.subTick_regs i c
    have hmodc : c.tcnt % (c.gra + 1) = c.tcnt := Nat.mod_eq_of_lt (by omega)
    have hdivc : c.tcnt / (c.gra + 1) = 0 := Nat.div_eq_of_lt (by omega)
    obtain ⟨s1, s2⟩ := Timers.divmod_step c.tcnt c.gra
    rw [hmodc, hdivc] at s1 s2
    have hnB : ¬ (c.tcr &&& 0x60 = 0x40) := by rw [hA]; decide
    have e1 : 25 + i * 4 ≠ 24 + i * 4 := by omega
    have e2 : 26 + i * 4 ≠ 24 + i * 4 := by omega
    have hcnt : (Timers.subTick i c).1.tcnt = (c.tcnt + 1) % (c.gra + 1) := by
      rw [Timers.subTick_tcnt]
      by_cases h : c.tcnt = c.gra
      · simp [h, hA, hnB, (s1 h).1]
      · have hm : (c.tcnt + 1) % 65536 = c.tcnt + 1 := Nat.mod_eq_of_lt (by omega)
        simp [h, hnB, hm, (s2 h).1]
    have hirq : c.tier &&& 1 ≠ 0 →
        (Timers.subTick i c).2.count (24 + i * 4) = (c.tcnt + 1) / (c.gra + 1) := by
      intro hie
      rw [Timers.subTick_irqs]
      by_cases h : c.tcnt = c.gra
      · rw [(s1 h).2]
        simp only [h, hie, ne_eq, not_false_eq_true, and_self, if_true, true_and]
        split_ifs <;> simp [List.count_cons, List.count_append, e1, e2]
      · rw [(s2 h).2]
        simp only [h, false_and, if_false]
        split_ifs <;> simp [List.count_cons, List.count_append, e1, e2]
    have hle2 : (Timers.subTick i c).1.tcnt ≤ (Timers.subTick i c).1.gra := by
      rw [hcnt, b1]
      exact Nat.le_of_lt_succ (Nat.mod_lt _ (Nat.succ_pos _))
    obtain ⟨r1, r2⟩ := ih (Timers.subTick i c).1 (by rw [b3]; exact hA) hle2
      (by rw [b1]; exact hgra)
    rw [b1, hcnt] at r1
    rw [b1, b4, hcnt] at r2
    have hk : c.tcnt + (k + 1) = c.tcnt + 1 + k := by omega
    simp only [Timers.runChannel, List.count_append]
    refine ⟨?_, fun hie => ?_⟩
    · rw [r1, hk, Nat.mod_add_mod]
    · rw [r2 hie, hirq hie, hk]
      have hd := Nat.div_add_mod (c.tcnt + 1) (c.gra + 1)
      have : c.tcnt + 1 + k = (c.tcnt + 1) % (c.gra + 1) + k
          + (c.gra + 1) * ((c.tcnt + 1) / (c.gra + 1)) := by
        generalize (c.gra + 1) * ((c.tcnt + 1) / (c.gra + 1)) = p at hd ⊢
        omega
      have hpos : 0 < c.gra + 1 := Nat.succ_pos _
      rw [this, Nat.add_mul_div_left _ _ hpos]
      omega

/-- Clear-on-A mode with the counter at most `gra`: among the first `n` sub-ticks, those
that see the counter equal to `gra` are `(tcnt + n) / (gra + 1)` in number. -/
theorem Timers.runChannel_clearA_events (i n : Nat) (c : Channel)
    (hA : c.tcr &&& 0x60 = 0x20) (hle : c.tcnt ≤ c.gra) (hgra : c.gra < 65536) :
    (List.range n).countP (fun k => decide ((Timers.runChannel i k c).1.tcnt = c.gra))
      = (c.tcnt + n) / (c.gra + 1) := by
  induction n with
  | zero =>
    have hlt : c.tcnt < c.gra + 1 := by omega
    simp [Nat.div_eq_of_lt hlt]
  | succ k ih =>
    obtain ⟨s1, s2⟩ := Timers.divmod_step (c.tcnt + k) c.gra
    have hk := (Timers.runChannel_clearA i k c hA hle hgra).1
    rw [List.range_succ, List.countP_append, ih]
    by_cases h : (c.tcnt + k) % (c.gra + 1) = c.gra
    · rw [show c.tcnt + (k + 1) = c.tcnt + k + 1 from rfl, (s1 h).2]
      simp [hk, h]
    · rw [show c.tcnt + (k + 1) = c.tcnt + k + 1 from rfl, (s2 h).2]
      simp [hk, h]

/-- C20: clear-on-A period.  For every running channel `i` in clear-on-A mode
(`tcr & 0x60 == 0x20`) whose counter is at most `compareA` before the tick, after a tick
with `n` elapsed sub-ticks the counter is `(old counter + n) mod (compareA + 1)`, so it is
still at most `compareA`; the sub-ticks of the tick that see the counter equal to
`compareA` number `(old counter + n) / (compareA + 1)`, which is exactly one when
`n = compareA + 1`; and if the compare-A interrupt is enabled, `24 + 4i` is raised that
many times. -/
theorem C20_clear_on_A_period (t : Timers) (cycles i n : Nat) (hi : i < 5)
    (hstart : t.tstr &&& (1 <<< i) ≠ 0)
    (hmode : t.tmdr &&& (1 <<< i) = 0)
    (hext : (t.channels i).tcr &&& 4 = 0)
    (hA : (t.channels i).tcr &&& 0x60 = 0x20)
    (hle : (t.channels i).tcnt ≤ (t.channels i).gra)
    (hgra : (t.channels i).gra < 65536)
    (hn : Timers.elapsed cycles t.lastCycles ((t.channels i).tcr &&& 3) = n) :
    ((Timers.tick t cycles).1.channels i).tcnt
        = ((t.channels i).tcnt + n) % ((t.channels i).gra + 1) ∧
      ((Timers.tick t cycles).1.channels i).tcnt ≤ ((Timers.tick t cycles).1.channels i).gra ∧
      (List.range n).countP
          (fun k => decide ((Timers.runChannel i k (t.channels i)).1.tcnt = (t.channels i).gra))
        = ((t.channels i).tcnt + n) / ((t.channels i).gra + 1) ∧
      (n = (t.channels i).gra + 1 →
        (List.range n).countP
          (fun k => decide ((Timers.runChannel i k (t.channels i)).1.tcnt = (t.channels i).gra))
        = 1) ∧
      ((t.channels i).tier &&& 1 ≠ 0 →
        (Timers.tick t cycles).2.count (24 + i * 4)
          = ((t.channels i).tcnt + n) / ((t.channels i).gra + 1)) ∧
      ((t.channels i).tier &&& 1 ≠ 0 → n = (t.channels i).gra + 1 →
        (Timers.tick t cycles).2.count (24 + i * 4) = 1) := by
  obtain ⟨a1, a2⟩ := Timers.tickChannel_running_channel cycles t i hstart hmode hext
  obtain ⟨r1, r2⟩ := Timers.runChannel_clearA i n (t.channels i) hA hle hgra
  have hev := Timers.runChannel_clearA_events i n (t.channels i) hA hle hgra
  have hc : (Timers.tick t cycles).1.channels i = (Timers.runChannel i n (t.channels i)).1 := by
    rw [Timers.tick_channel cycles t i hi, a1, hn]
  have hcount : (Timers.tick t cycles).2.count (24 + i * 4)
      = (Timers.runChannel i n (t.channels i)).2.count (24 + i * 4) := by
    rw [Timers.tick_count_own cycles t i _ hi (Or.inl rfl), a2, hn]
  have hone : n = (t.channels i).gra + 1 →
      ((t.channels i).tcnt + n) / ((t.channels i).gra + 1) = 1 := by
    intro h
    have hpos : 0 < (t.channels i).gra + 1 := Nat.succ_pos _
    rw [h, Nat.add_div_right _ hpos, Nat.div_eq_of_lt (by omega)]
  refine ⟨by rw [hc, r1], ?_, hev, fun h => by rw [hev, hone h], fun hie => ?_,
    fun hie h => ?_⟩
  · rw [hc, r1, (Timers.runChannel_regs i n (t.channels i)).1]
    exact Nat.le_of_lt_succ (Nat.mod_lt _ (Nat.succ_pos _))
  · rw [hcount, r2 hie]
  · rw [hcount, r2 hie, hone h]

/-- Witness of C20: `exClearOnA` (`gra = 5`, counter 0) after 6 elapsed cycles is back at 0
and has raised vector 24 once. -/
theorem C20_clear_on_A_period_witness :
    ((Timers.tick exClearOnA 6).1.channels 0).tcnt = (0 + 6) % (5 + 1) ∧
      (Timers.tick exClearOnA 6).2.count (24 + 0 * 4) = 1 :=
  have h := C20_clear_on_A_period exClearOnA 6 0 6 (by decide) (by decide) (by decide)
    (by decide) (by decide) (by decide) (by decide) (by decide)
  ⟨h.1, h.2.2.2.2.2 (by decide) (by decide)⟩

/-! ## Timer unit: status flags -/

/-- One sub-tick ORs some of the bits 0, 1, 2 into the status. -/
theorem Timers.subTick_tsr_or (i : Nat) (c : Channel) :
    ∃ m, m < 8 ∧ (Timers.subTick i c).1.tsr = c.tsr ||| m := by
  refine ⟨((if c.tcnt = c.gra then 1 else 0) ||| (if c.tcnt = c.grb then 2 else 0)) |||
    (if c.tcnt = 0 ∧ c.tier &&& 4 ≠ 0 then 4 else 0), ?_, ?_⟩
  · split_ifs <;> decide
  · rw [Timers.subTick_tsr, Nat.or_assoc, Nat.or_assoc, Nat.or_assoc]

/-- The inner loop ORs some of the bits 0, 1, 2 into the status. -/
theorem Timers.runChannel_tsr_or (i n : Nat) (c : Channel) :
    ∃ m, m < 8 ∧ (Timers.runChannel i n c).1.tsr = c.tsr ||| m := by
  induction n generalizing c with
  | zero => exact ⟨0, by decide, by simp [Timers.runChannel]⟩
  | succ k ih =>
    obtain ⟨m1, h1, e1⟩ := Timers.subTick_tsr_or i c
    obtain ⟨m2, h2, e2⟩ := ih (Timers.subTick i c).1
    refine ⟨m1 ||| m2, ?_, ?_⟩
    · exact @Nat.or_lt_two_pow m1 m2 3 h1 h2
    · simp only [Timers.runChannel]
      rw [e2, e1, Nat.or_assoc]

/-- A status bit that is set stays set through the inner loop. -/
theorem Timers.runChannel_sticky (i n : Nat) (c : Channel) (k : Nat)
    (h : c.tsr.testBit k = true) : (Timers.runChannel i n c).1.tsr.testBit k = true := by
  obtain ⟨m, _, e⟩ := Timers.runChannel_tsr_or i n c
  rw [e, Nat.testBit_or, h, Bool.true_or]

/-- The status bits that one sub-tick sets. -/
theorem Timers.subTick_sets (i : Nat) (c : Channel) :
    (c.tcnt = c.gra → (Timers.subTick i c).1.tsr.testBit 0 = true) ∧
      (c.tcnt = c.grb → (Timers.subTick i c).1.tsr.testBit 1 = true) ∧
      (c.tcnt = 0 → c.tier &&& 4 ≠ 0 → (Timers.subTick i c).1.tsr.testBit 2 = true) ∧
      ((Timers.subTick i c).1.tsr.testBit 2 = true →
        c.tsr.testBit 2 = true ∨ (c.tcnt = 0 ∧ c.tier &&& 4 ≠ 0)) := by
  have b1 : (1 : Nat).testBit 0 = true := by decide
  have b2 : (2 : Nat).testBit 1 = true := by decide
  have b4 : (4 : Nat).testBit 2 = true := by decide
  have z1 : (1 : Nat).testBit 2 = false := by decide
  have z2 : (2 : Nat).testBit 2 = false := by decide
  have z0 : (0 : Nat).testBit 2 = false := by decide
  rw [Timers.subTick_tsr]
  simp only [Nat.testBit_or]
  refine ⟨fun h => ?_, fun h => ?_, fun h h4 => ?_, fun h => ?_⟩
  · simp [h, b1]
  · simp [h, b2]
  · simp [h, h4, b4]
  · by_cases hz : c.tcnt = 0 ∧ c.tier &&& 4 ≠ 0
    · exact Or.inr hz
    · left
      simp only [hz, if_false, z0, Bool.or_false] at h
      split_ifs at h <;> simp_all

/-- The state before sub-tick `k + 1` is the state after one sub-tick, `k` sub-ticks on. -/
theorem Timers.runChannel_succ (i k : Nat) (c : Channel) :
    (Timers.runChannel i (k + 1) c).1 = (Timers.runChannel i k (Timers.subTick i c).1).1 := by
  simp [Timers.runChannel]

/-- The status bits that the inner loop sets: bit 0 and bit 1 whenever a sub-tick sees the
counter at `gra` and at `grb`, bit 2 exactly when a sub-tick sees the counter at 0 with the
overflow interrupt enabled. -/
theorem Timers.runChannel_sets (i n : Nat) (c : Channel) :
    (∀ k, k < n → (Timers.runChannel i k c).1.tcnt = c.gra →
        (Timers.runChannel i n c).1.tsr.testBit 0 = true) ∧
      (∀ k, k < n → (Timers.runChannel i k c).1.tcnt = c.grb →
        (Timers.runChannel i n c).1.tsr.testBit 1 = true) ∧
      (∀ k, k < n → (Timers.runChannel i k c).1.tcnt = 0 → c.tier &&& 4 ≠ 0 →
        (Timers.runChannel i n c).1.tsr.testBit 2 = true) ∧
      ((Timers.runChannel i n c).1.tsr.testBit 2 = true →
        c.tsr.testBit 2 = true ∨
          (c.tier &&& 4 ≠ 0 ∧ ∃ k, k < n ∧ (Timers.runChannel i k c).1.tcnt = 0)) := by
  induction n generalizing c with
  | zero =>
    refine ⟨fun k hk => absurd hk (Nat.not_lt_zero k), fun k hk => absurd hk (Nat.not_lt_zero k),
      fun k hk => absurd hk (Nat.not_lt_zero k), fun h => Or.inl ?_⟩
    simpa [Timers.runChannel] using h
  | succ n ih =>
    obtain ⟨r1, r2, _, r4⟩ := Timers.subTick_regs i c
    obtain ⟨s1, s2, s3, s4⟩ := Timers.subTick_sets i c
    obtain ⟨h1, h2, h3, h4⟩ := ih (Timers.subTick i c).1
    rw [r1] at h1
    rw [r2] at h2
    rw [r4] at h3 h4
    rw [Timers.runChannel_succ]
    refine ⟨fun k hk he => ?_, fun k hk he => ?_, fun k hk he h4e => ?_, fun h => ?_⟩
    · cases k with
      | zero => exact Timers.runChannel_sticky i n _ 0 (s1 (by simpa [Timers.runChannel] using he))
      | succ j => exact h1 j (by omega) (by rw [← Timers.runChannel_succ]; exact he)
    · cases k with
      | zero => exact Timers.runChannel_sticky i n _ 1 (s2 (by simpa [Timers.runChannel] using he))
      | succ j => exact h2 j (by omega) (by rw [← Timers.runChannel_succ]; exact he)
    · cases k with
      | zero =>
        exact Timers.runChannel_sticky i n _ 2 (s3 (by simpa [Timers.runChannel] using he) h4e)
      | succ j => exact h3 j (by omega) (by rw [← Timers.runChannel_succ]; exact he) h4e
    · rcases h4 h with hb | ⟨ht, j, hj, hje⟩
      · rcases s4 hb with hb0 | ⟨hz, ht⟩
        · exact Or.inl hb0
        · exact Or.inr ⟨ht, 0, by omega, by simpa [Timers.runChannel] using hz⟩
      · exact Or.inr ⟨ht, j + 1, by omega, by rw [Timers.runChannel_succ]; exact hje⟩

/-- After a tick, channel `i < 5` is the result of some number of sub-ticks (none if the
channel is skipped). -/
theorem Timers.tick_channel_run (cycles : Nat) (t : Timers) (i : Nat) (hi : i < 5) :
    ∃ n, (Timers.tick t cycles).1.channels i = (Timers.runChannel i n (t.channels i)).1 := by
  rw [Timers.tick_channel cycles t i hi]
  simp only [Timers.tickChannel]
  split_ifs
  · exact ⟨0, rfl⟩
  · exact ⟨0, rfl⟩
  · exact ⟨0, rfl⟩
  · exact ⟨Timers.elapsed cycles t.lastCycles ((t.channels i).tcr &&& 3), by simp⟩

/-- C17: status flags are sticky under tick.  For every channel `i < 5`, every status bit
set before a tick is set after it, and the new status is the old one ORed with a value
below 8 (bits 0, 1, 2 only).  For a running channel, with `n` the elapsed sub-tick count:
bit 0 is set whenever a sub-tick of the tick sees the counter equal to `compareA` and bit 1
whenever one sees it equal to `compareB`, whatever `interruptEnable` is; bit 2 is set
whenever a sub-tick sees the counter at 0 with `interruptEnable` bit 2 set, and if bit 2 is
set after the tick then it was set before or such a sub-tick occurred. -/
theorem C17_status_sticky (t : Timers) (cycles i : Nat) (hi : i < 5) :
    (∀ k, (t.channels i).tsr.testBit k = true →
        ((Timers.tick t cycles).1.channels i).tsr.testBit k = true) ∧
      (∃ m, m < 8 ∧
        ((Timers.tick t cycles).1.channels i).tsr = (t.channels i).tsr ||| m) ∧
      (t.tstr &&& (1 <<< i) ≠ 0 → t.tmdr &&& (1 <<< i) = 0 →
        (t.channels i).tcr &&& 4 = 0 →
        (∀ k, k < Timers.elapsed cycles t.lastCycles ((t.channels i).tcr &&& 3) →
            (Timers.runChannel i k (t.channels i)).1.tcnt = (t.channels i).gra →
            ((Timers.tick t cycles).1.channels i).tsr.testBit 0 = true) ∧
          (∀ k, k < Timers.elapsed cycles t.lastCycles ((t.channels i).tcr &&& 3) →
            (Timers.runChannel i k (t.channels i)).1.tcnt = (t.channels i).grb →
            ((Timers.tick t cycles).1.channels i).tsr.testBit 1 = true) ∧
          (∀ k, k < Timers.elapsed cycles t.lastCycles ((t.channels i).tcr &&& 3) →
            (Timers.runChannel i k (t.channels i)).1.tcnt = 0 →
            (t.channels i).tier &&& 4 ≠ 0 →
            ((Timers.tick t cycles).1.channels i).tsr.testBit 2 = true) ∧
          (((Timers.tick t cycles).1.channels i).tsr.testBit 2 = true →
            (t.channels i).tsr.testBit 2 = true ∨
              ((t.channels i).tier &&& 4 ≠ 0 ∧
                ∃ k, k < Timers.elapsed cycles t.lastCycles ((t.channels i).tcr &&& 3) ∧
                  (Timers.runChannel i k (t.channels i)).1.tcnt = 0))) := by
  obtain ⟨n, hn⟩ := Timers.tick_channel_run cycles t i hi
  refine ⟨fun k hk => ?_, ?_, fun hstart hmode hext => ?_⟩
  · rw [hn]
    exact Timers.runChannel_sticky i n _ k hk
  · rw [hn]
    exact Timers.runChannel_tsr_or i n _
  · have hc : (Timers.tick t cycles).1.channels i =
        (Timers.runChannel i (Timers.elapsed cycles t.lastCycles ((t.channels i).tcr &&& 3))
          (t.channels i)).1 := by
      rw [Timers.tick_channel cycles t i hi,
        (Timers.tickChannel_running_channel cycles t i hstart hmode hext).1]
    rw [hc]
    exact Timers.runChannel_sets i _ (t.channels i)

/-- Witness of C17 on `exFreeRun` (status `0xF8`, `gra = 5`): after 6 elapsed cycles bit 3
is still set and bit 0 has been set by the sub-tick that saw the counter at 5. -/
theorem C17_status_sticky_witness :
    ((Timers.tick exFreeRun 6).1.channels 0).tsr.testBit 3 = true ∧
      ((Timers.tick exFreeRun 6).1.channels 0).tsr.testBit 0 = true :=
  have h := C17_status_sticky exFreeRun 6 0 (by decide)
  ⟨h.1 3 (by decide), (h.2.2 (by decide) (by decide) (by decide)).1 5 (by decide) (by decide)⟩

/-! ## Timer unit: order of the interrupts -/

/-- The interrupts of the inner loop are those of its sub-ticks, one sub-tick after the
other, and there are `n` sub-ticks. -/
theorem Timers.runChannel_trace (i n : Nat) (c : Channel) :
    (Timers.runChannel i n c).2 = (Timers.runTrace i n c).flatten ∧
      (Timers.runTrace i n c).length = n := by
  induction n generalizing c with
  | zero => simp [Timers.runChannel, Timers.runTrace]
  | succ k ih =>
    obtain ⟨h1, h2⟩ := ih (Timers.subTick i c).1
    simp [Timers.runChannel, Timers.runTrace, h1, h2]

/-- Within one sub-tick the vectors appear in the order compare-A, compare-B, overflow. -/
theorem Timers.subTick_order (i : Nat) (c : Channel) :
    (Timers.subTick i c).2.Sublist [24 + i * 4, 25 + i * 4, 26 + i * 4] := by
  rw [Timers.subTick_irqs]
  have h : [24 + i * 4, 25 + i * 4, 26 + i * 4] = [24 + i * 4] ++ [25 + i * 4] ++ [26 + i * 4] :=
    rfl
  rw [h]
  refine List.Sublist.append (List.Sublist.append ?_ ?_) ?_ <;>
    split_ifs <;> first | exact List.Sublist.refl _ | exact List.nil_sublist _

theorem Timers.runTrace_order (i n : Nat) (c : Channel) :
    ∀ l ∈ Timers.runTrace i n c, l.Sublist [24 + i * 4, 25 + i * 4, 26 + i * 4] := by
  induction n generalizing c with
  | zero => simp [Timers.runTrace]
  | succ k ih =>
    intro l hl
    simp only [Timers.runTrace, List.mem_cons] at hl
    rcases hl with rfl | hl
    · exact Timers.subTick_order i c
    · exact ih _ l hl

/-- The three vectors of channel `i` belong to channel `i`. -/
theorem Timers.vectorChannel_own (i v : Nat)
    (h : v = 24 + i * 4 ∨ v = 25 + i * 4 ∨ v = 26 + i * 4) : Timers.vectorChannel v = i := by
  unfold Timers.vectorChannel
  omega

/-- The interrupts of the loop body for channel `i`: none if the channel is skipped, those of
the sub-ticks of the inner loop otherwise. -/
theorem Timers.tickChannel_trace (cycles : Nat) (t : Timers) (i : Nat) :
    ((t.tstr &&& (1 <<< i) = 0 ∨ t.tmdr &&& (1 <<< i) ≠ 0 ∨ (t.channels i).tcr &&& 4 ≠ 0) →
        (Timers.tickChannel cycles t i).2 = []) ∧
      (t.tstr &&& (1 <<< i) ≠ 0 → t.tmdr &&& (1 <<< i) = 0 →
        (t.channels i).tcr &&& 4 = 0 →
        (Timers.tickChannel cycles t i).2 =
          (Timers.runTrace i (Timers.elapsed cycles t.lastCycles ((t.channels i).tcr &&& 3))
            (t.channels i)).flatten) := by
  refine ⟨fun h => ?_, fun h1 h2 h3 => ?_⟩
  · rw [Timers.tickChannel_skipped cycles t i h]
  · rw [(Timers.tickChannel_running_channel cycles t i h1 h2 h3).2]
    exact (Timers.runChannel_trace i _ _).1

/-- C14: deterministic interrupt order.  The interrupts of one tick are the concatenation,
for channels 0, 1, 2, 3, 4 in this order, of the channel's interrupts; those are none for a
skipped channel and, for a running channel, the concatenation of the interrupts of its
elapsed sub-ticks, each of which is a sublist of `[24 + 4i, 25 + 4i, 26 + 4i]` (compare-A,
compare-B, overflow, in this order).  Hence along the list the channel of the vector never
decreases, and every vector raised is one of `24 + 4i`, `25 + 4i`, `26 + 4i` with
`i <= 4`. -/
theorem C14_interrupt_order (t : Timers) (cycles : Nat) :
    (Timers.tick t cycles).2 =
        (Timers.tickChannel cycles t 0).2 ++ (Timers.tickChannel cycles t 1).2 ++
          (Timers.tickChannel cycles t 2).2 ++ (Timers.tickChannel cycles t 3).2 ++
          (Timers.tickChannel cycles t 4).2 ∧
      (∀ i, ((t.tstr &&& (1 <<< i) = 0 ∨ t.tmdr &&& (1 <<< i) ≠ 0 ∨
            (t.channels i).tcr &&& 4 ≠ 0) →
          (Timers.tickChannel cycles t i).2 = []) ∧
        (t.tstr &&& (1 <<< i) ≠ 0 → t.tmdr &&& (1 <<< i) = 0 →
          (t.channels i).tcr &&& 4 = 0 →
          (Timers.tickChannel cycles t i).2 =
            (Timers.runTrace i
              (Timers.elapsed cycles t.lastCycles ((t.channels i).tcr &&& 3))
              (t.channels i)).flatten)) ∧
      (∀ i n c, (Timers.runTrace i n c).length = n ∧
        ∀ l ∈ Timers.runTrace i n c, l.Sublist [24 + i * 4, 25 + i * 4, 26 + i * 4]) ∧
      (Timers.tick t cycles).2.Pairwise
        (fun a b => Timers.vectorChannel a ≤ Timers.vectorChannel b) ∧
      (∀ v ∈ (Timers.tick t cycles).2,
        ∃ i, i < 5 ∧ (v = 24 + i * 4 ∨ v = 25 + i * 4 ∨ v = 26 + i * 4)) := by
  have hr : List.range 5 = [0, 1, 2, 3, 4] := by decide
  have hirq := Timers.tick_irqs cycles t
  refine ⟨?_, fun i => Timers.tickChannel_trace cycles t i,
    fun i n c => ⟨(Timers.runChannel_trace i n c).2, Timers.runTrace_order i n c⟩, ?_, ?_⟩
  · rw [hirq, hr]
    simp [List.flatMap_cons, List.append_assoc]
  · rw [hirq, List.pairwise_flatMap]
    refine ⟨fun a _ => ?_, ?_⟩
    · rw [List.pairwise_iff_forall_sublist]
      intro x y hxy
      have hx := Timers.vectorChannel_own a x
        (Timers.tickChannel_mem cycles t a x (hxy.subset (List.mem_cons_self _ _)))
      have hy := Timers.vectorChannel_own a y
        (Timers.tickChannel_mem cycles t a y
          (hxy.subset (List.mem_cons_of_mem _ (List.mem_singleton_self _))))
      rw [hx, hy]
    · refine (List.pairwise_lt_range 5).imp ?_
      intro a b hab x hx y hy
      rw [Timers.vectorChannel_own a x (Timers.tickChannel_mem cycles t a x hx),
        Timers.vectorChannel_own b y (Timers.tickChannel_mem cycles t b y hy)]
      exact Nat.le_of_lt hab
  · intro v hv
    rw [hirq, List.mem_flatMap] at hv
    obtain ⟨a, ha, hva⟩ := hv
    exact ⟨a, List.mem_range.mp ha, Timers.tickChannel_mem cycles t a v hva⟩

/-! ## Timer unit: composition of ticks -/

/-- Dividing two numbers by the same positive number does not widen their gap. -/
theorem Timers.div_gap (a b k : Nat) (hk : 0 < k) (hab : a ≤ b) :
    a / k ≤ b / k ∧ b / k - a / k ≤ b - a := by
  have h1 : a / k ≤ b / k := Nat.div_le_div_right hab
  refine ⟨h1, ?_⟩
  have h2 : b / k < a / k + (b - a) + 1 := by
    rw [Nat.div_lt_iff_lt_mul hk]
    have ha := Nat.div_add_mod a k
    have hm := Nat.mod_lt a hk
    have hd : b - a ≤ (b - a) * k := Nat.le_mul_of_pos_right _ hk
    have e : (a / k + (b - a) + 1) * k = k * (a / k) + (b - a) * k + k := by ring
    rw [e]
    generalize k * (a / k) = p at ha ⊢
    generalize (b - a) * k = q at hd ⊢
    omega
  omega

/-- With a cycle counter that has not gone back and fewer than `2^32` cycles elapsed, the
elapsed sub-tick count is the plain difference of the shifted cycle values. -/
theorem Timers.elapsed_exact (a b s : Nat) (hab : a ≤ b) (hd : b - a < 2 ^ 32) :
    a >>> s ≤ b >>> s ∧ Timers.elapsed b a s = b >>> s - a >>> s := by
  have hk : 0 < 2 ^ s := Nat.pos_pow_of_pos s (by decide)
  obtain ⟨g1, g2⟩ := Timers.div_gap a b (2 ^ s) hk hab
  simp only [Timers.elapsed, Nat.shiftRight_eq_div_pow]
  generalize b / 2 ^ s = x at g1 g2 ⊢
  generalize a / 2 ^ s = y at g1 g2 ⊢
  clear hk
  norm_num at hd ⊢
  omega

/-- What a tick leaves alone: every global byte, the scratch array and the channels from
index 5 on; the snapshot becomes `cycles`. -/
theorem Timers.tick_frame (cycles : Nat) (t : Timers) :
    (Timers.tick t cycles).1.tstr = t.tstr ∧ (Timers.tick t cycles).1.tmdr = t.tmdr ∧
      (Timers.tick t cycles).1.lastCycles = cycles ∧
      (Timers.tick t cycles).1.space = t.space ∧ (Timers.tick t cycles).1.tsnc = t.tsnc ∧
      (Timers.tick t cycles).1.tfcr = t.tfcr ∧
      ∀ i, ¬ i < 5 → (Timers.tick t cycles).1.channels i = t.channels i := by
  obtain ⟨a1, a2, _, a4, a5, a6, a7, _⟩ := Timers.tick_upto cycles t 5
  refine ⟨a1, a2, rfl, a4, a5, a6, fun i hi => ?_⟩
  have h := a7 i
  simp only [hi, if_false] at h
  exact h

/-- Two timer units with the same fields are equal. -/
theorem Timers.eq_of_fields (a b : Timers) (h1 : a.lastCycles = b.lastCycles)
    (h2 : a.space = b.space) (h3 : a.tstr = b.tstr) (h4 : a.tsnc = b.tsnc)
    (h5 : a.tmdr = b.tmdr) (h6 : a.tfcr = b.tfcr) (h7 : a.channels = b.channels) : a = b := by
  cases a
  cases b
  simp_all

/-- The loop body for channel `i` at `c1` and then at `c2`, against the loop body at `c2`
alone: same final channel, and the interrupts of the two steps together are those of the
single step. -/
theorem Timers.tickChannel_compose (t u : Timers) (c1 c2 i : Nat)
    (hu1 : u.tstr = t.tstr) (hu2 : u.tmdr = t.tmdr) (hu3 : u.lastCycles = c1)
    (hu4 : u.channels i = (Timers.tickChannel c1 t i).1.channels i)
    (h01 : t.lastCycles ≤ c1) (h12 : c1 ≤ c2) (h32 : c2 - t.lastCycles < 2 ^ 32) :
    (Timers.tickChannel c2 u i).1.channels i = (Timers.tickChannel c2 t i).1.channels i ∧
      (Timers.tickChannel c1 t i).2 ++ (Timers.tickChannel c2 u i).2
        = (Timers.tickChannel c2 t i).2 := by
  by_cases hh : t.tstr &&& (1 <<< i) = 0 ∨ t.tmdr &&& (1 <<< i) ≠ 0 ∨
      (t.channels i).tcr &&& 4 ≠ 0
  · have k1 := Timers.tickChannel_skipped c1 t i hh
    rw [k1] at hu4
    have hh2 : u.tstr &&& (1 <<< i) = 0 ∨ u.tmdr &&& (1 <<< i) ≠ 0 ∨
        (u.channels i).tcr &&& 4 ≠ 0 := by
      rw [hu1, hu2, hu4]; exact hh
    rw [k1, Timers.tickChannel_skipped c2 t i hh, Timers.tickChannel_skipped c2 u i hh2]
    exact ⟨hu4, rfl⟩
  · have hs : t.tstr &&& (1 <<< i) ≠ 0 := fun h => hh (Or.inl h)
    have hm : t.tmdr &&& (1 <<< i) = 0 := by
      by_contra h
      exact hh (Or.inr (Or.inl h))
    have he : (t.channels i).tcr &&& 4 = 0 := by
      by_contra h
      exact hh (Or.inr (Or.inr h))
    obtain ⟨p1, p2⟩ := Timers.tickChannel_running_channel c1 t i hs hm he
    obtain ⟨q1, q2⟩ := Timers.tickChannel_running_channel c2 t i hs hm he
    rw [p1] at hu4
    have htcr : (u.channels i).tcr = (t.channels i).tcr := by
      rw [hu4]; exact (Timers.runChannel_regs i _ _).2.2.1
    obtain ⟨r1, r2⟩ := Timers.tickChannel_running_channel c2 u i (by rw [hu1]; exact hs)
      (by rw [hu2]; exact hm) (by rw [htcr]; exact he)
    rw [htcr, hu3, hu4] at r1 r2
    obtain ⟨x1, e1⟩ := Timers.elapsed_exact t.lastCycles c1 ((t.channels i).tcr &&& 3) h01
      (by omega)
    obtain ⟨x2, e2⟩ := Timers.elapsed_exact c1 c2 ((t.channels i).tcr &&& 3) h12 (by omega)
    obtain ⟨_, e3⟩ := Timers.elapsed_exact t.lastCycles c2 ((t.channels i).tcr &&& 3)
      (Nat.le_trans h01 h12) h32
    have hsum : Timers.elapsed c2 t.lastCycles ((t.channels i).tcr &&& 3) =
        Timers.elapsed c1 t.lastCycles ((t.channels i).tcr &&& 3) +
          Timers.elapsed c2 c1 ((t.channels i).tcr &&& 3) := by
      rw [e1, e2, e3]; omega
    rw [q1, q2, r1, r2, p2, hsum, Timers.runChannel_add]
    exact ⟨rfl, rfl⟩

/-- The vectors of channel `i` in the interrupt list of a tick are the interrupts of the loop
body for channel `i`. -/
theorem Timers.tick_filter_own (cycles : Nat) (t : Timers) (i : Nat) (hi : i < 5) :
    (Timers.tick t cycles).2.filter (fun v => decide (Timers.vectorChannel v = i))
      = (Timers.tickChannel cycles t i).2 := by
  have hown : ∀ j, j = i →
      (Timers.tickChannel cycles t j).2.filter (fun v => decide (Timers.vectorChannel v = i))
        = (Timers.tickChannel cycles t j).2 := by
    intro j hj
    rw [List.filter_eq_self]
    intro v hv
    rw [decide_eq_true_eq, ← hj]
    exact Timers.vectorChannel_own j v (Timers.tickChannel_mem cycles t j v hv)
  have hother : ∀ j, j ≠ i →
      (Timers.tickChannel cycles t j).2.filter (fun v => decide (Timers.vectorChannel v = i))
        = [] := by
    intro j hj
    rw [List.filter_eq_nil_iff]
    intro v hv
    rw [decide_eq_true_eq,
      Timers.vectorChannel_own j v (Timers.tickChannel_mem cycles t j v hv)]
    exact hj
  have hr : List.range 5 = [0, 1, 2, 3, 4] := by decide
  rw [Timers.tick_irqs, hr]
  simp only [List.flatMap_cons, List.flatMap_nil, List.append_nil, List.filter_append]
  interval_cases i
  · rw [hown 0 rfl, hother 1 (by decide), hother 2 (by decide), hother 3 (by decide),
      hother 4 (by decide)]
    simp
  · rw [hown 1 rfl, hother 0 (by decide), hother 2 (by decide), hother 3 (by decide),
      hother 4 (by decide)]
    simp
  · rw [hown 2 rfl, hother 0 (by decide), hother 1 (by decide), hother 3 (by decide),
      hother 4 (by decide)]
    simp
  · rw [hown 3 rfl, hother 0 (by decide), hother 1 (by decide), hother 2 (by decide),
      hother 4 (by decide)]
    simp
  · rw [hown 4 rfl, hother 0 (by decide), hother 1 (by decide), hother 2 (by decide),
      hother 3 (by decide)]
    simp

/-- C19: tick composition.  For every timer unit with snapshot `c0 = lastCycles` and all
cycle values `c0 <= c1 <= c2` with `c2 - c0 < 2^32`, a tick at `c1` followed by a tick at
`c2` ends in exactly the state of a single tick at `c2`, and for every channel `i < 5` the
vectors of channel `i` raised by the two ticks, in order, are those raised by the single
tick.  The snapshot is `c1` after the first tick and `c2` at the end of both runs. -/
theorem C19_tick_composition (t : Timers) (c1 c2 : Nat) (h01 : t.lastCycles ≤ c1)
    (h12 : c1 ≤ c2) (h32 : c2 - t.lastCycles < 2 ^ 32) :
    (Timers.tick (Timers.tick t c1).1 c2).1 = (Timers.tick t c2).1 ∧
      (∀ i, i < 5 →
        ((Timers.tick t c1).2 ++ (Timers.tick (Timers.tick t c1).1 c2).2).filter
            (fun v => decide (Timers.vectorChannel v = i))
          = (Timers.tick t c2).2.filter (fun v => decide (Timers.vectorChannel v = i))) ∧
      (Timers.tick t c1).1.lastCycles = c1 ∧
      (Timers.tick (Timers.tick t c1).1 c2).1.lastCycles = c2 ∧
      (Timers.tick t c2).1.lastCycles = c2 := by
  obtain ⟨a1, a2, a3, a4, a5, a6, a7⟩ := Timers.tick_frame c1 t
  obtain ⟨b1, b2, b3, b4, b5, b6, b7⟩ := Timers.tick_frame c2 (Timers.tick t c1).1
  obtain ⟨d1, d2, d3, d4, d5, d6, d7⟩ := Timers.tick_frame c2 t
  have hcomp : ∀ i, i < 5 →
      (Timers.tickChannel c2 (Timers.tick t c1).1 i).1.channels i
          = (Timers.tickChannel c2 t i).1.channels i ∧
        (Timers.tickChannel c1 t i).2 ++ (Timers.tickChannel c2 (Timers.tick t c1).1 i).2
          = (Timers.tickChannel c2 t i).2 := fun i hi =>
    Timers.tickChannel_compose t (Timers.tick t c1).1 c1 c2 i a1 a2 a3
      (Timers.tick_channel c1 t i hi) h01 h12 h32
  refine ⟨?_, fun i hi => ?_, a3, b3, d3⟩
  · apply Timers.eq_of_fields
    · rw [b3, d3]
    · rw [b4, a4, d4]
    · rw [b1, a1, d1]
    · rw [b5, a5, d5]
    · rw [b2, a2, d2]
    · rw [b6, a6, d6]
    · funext i
      by_cases hi : i < 5
      · rw [Timers.tick_channel c2 _ i hi, Timers.tick_channel c2 t i hi]
        exact (hcomp i hi).1
      · rw [b7 i hi, a7 i hi, d7 i hi]
  · rw [List.filter_append, Timers.tick_filter_own c1 t i hi,
      Timers.tick_filter_own c2 _ i hi, Timers.tick_filter_own c2 t i hi]
    exact (hcomp i hi).2

/-- Witness of C19: `exFreeRun` ticked at cycle 3 and then at cycle 6, against one tick at
cycle 6; the snapshot ends at 6 in both runs. -/
theorem C19_tick_composition_witness :
    (Timers.tick (Timers.tick exFreeRun 3).1 6).1 = (Timers.tick exFreeRun 6).1 ∧
      (Timers.tick (Timers.tick exFreeRun 3).1 6).1.lastCycles = 6 ∧
      (Timers.tick exFreeRun 6).1.lastCycles = 6 :=
  have h := C19_tick_composition exFreeRun 3 6 (by decide) (by decide) (by decide)
  ⟨h.1, h.2.2.2.1, h.2.2.2.2⟩

/-! ## Timer unit: independence of the registers -/

/-- Channel level: what a store at block offset `x` leaves alone, register by register and,
for the 16-bit registers, byte by byte. -/
theorem Timers.writeChannel_keeps (c : Channel) (x v : Nat) (hv : v < 256) :
    (x ≠ 0 → (Timers.writeChannel c x v).tcr = c.tcr) ∧
      (x ≠ 2 → (Timers.writeChannel c x v).tier = c.tier) ∧
      (x ≠ 3 → (Timers.writeChannel c x v).tsr = c.tsr) ∧
      (x ≠ 4 → (Timers.writeChannel c x v).tcnt / 256 % 256 = c.tcnt / 256 % 256) ∧
      (x ≠ 5 → (Timers.writeChannel c x v).tcnt % 256 = c.tcnt % 256) ∧
      (x ≠ 6 → (Timers.writeChannel c x v).gra / 256 % 256 = c.gra / 256 % 256) ∧
      (x ≠ 7 → (Timers.writeChannel c x v).gra % 256 = c.gra % 256) ∧
      (x ≠ 8 → (Timers.writeChannel c x v).grb / 256 % 256 = c.grb / 256 % 256) ∧
      (x ≠ 9 → (Timers.writeChannel c x v).grb % 256 = c.grb % 256) := by
  by_cases hx : x < 10
  · interval_cases x
    all_goals
      simp only [Timers.writeChannel, Timers.store_hi _ _ hv, Timers.store_lo _ _ hv]
      simp
    all_goals omega
  · have e : Timers.writeChannel c x v = c := by
      have n0 : x ≠ 0 := by omega
      have n1 : x ≠ 1 := by omega
      have n2 : x ≠ 2 := by omega
      have n3 : x ≠ 3 := by omega
      have n4 : x ≠ 4 := by omega
      have n5 : x ≠ 5 := by omega
      have n6 : x ≠ 6 := by omega
      have n7 : x ≠ 7 := by omega
      have n8 : x ≠ 8 := by omega
      have n9 : x ≠ 9 := by omega
      simp only [Timers.writeChannel, n0, n1, n2, n3, n4, n5, n6, n7, n8, n9, if_false]
    rw [e]
    simp

/-- Channel level: what is loaded from each block offset. -/
theorem Timers.readChannel_bytes (d : Channel) :
    Timers.readChannel d 0 = d.tcr ∧ Timers.readChannel d 1 = 0 ∧
      Timers.readChannel d 2 = d.tier ∧ Timers.readChannel d 3 = d.tsr ∧
      Timers.readChannel d 4 = d.tcnt / 256 % 256 ∧ Timers.readChannel d 5 = d.tcnt % 256 ∧
      Timers.readChannel d 6 = d.gra / 256 % 256 ∧ Timers.readChannel d 7 = d.gra % 256 ∧
      Timers.readChannel d 8 = d.grb / 256 % 256 ∧ Timers.readChannel d 9 = d.grb % 256 := by
  simp [Timers.readChannel, Timers.shr_8, Timers.and_255]

/-- Channel level: a store at block offset `x` does not change what is loaded from another
block offset `y`. -/
theorem Timers.readChannel_writeChannel_ne (c : Channel) (x y v : Nat) (hy : y < 10)
    (hxy : x ≠ y) (hv : v < 256) :
    Timers.readChannel (Timers.writeChannel c x v) y = Timers.readChannel c y := by
  obtain ⟨k0, k2, k3, k4, k5, k6, k7, k8, k9⟩ := Timers.writeChannel_keeps c x v hv
  obtain ⟨a0, a1, a2, a3, a4, a5, a6, a7, a8, a9⟩ :=
    Timers.readChannel_bytes (Timers.writeChannel c x v)
  obtain ⟨b0, b1, b2, b3, b4, b5, b6, b7, b8, b9⟩ := Timers.readChannel_bytes c
  interval_cases y
  · rw [a0, b0, k0 hxy]
  · rw [a1, b1]
  · rw [a2, b2, k2 hxy]
  · rw [a3, b3, k3 hxy]
  · rw [a4, b4, k4 hxy]
  · rw [a5, b5, k5 hxy]
  · rw [a6, b6, k6 hxy]
  · rw [a7, b7, k7 hxy]
  · rw [a8, b8, k8 hxy]
  · rw [a9, b9, k9 hxy]

/-- A read of one of the four global bytes. -/
theorem Timers.read_global (u : Timers) (o : Nat) (ho : o < 4) :
    (Timers.read u (0xffff60 + o)).1 =
      if o = 0 then u.tstr else if o = 1 then u.tsnc else if o = 2 then u.tmdr
      else u.tfcr := by
  interval_cases o <;> simp [Timers.read]

/-- A write of one of the four global bytes leaves the channels and the scratch array. -/
theorem Timers.write_global (t : Timers) (o v : Nat) (ho : o < 4) :
    (Timers.write t (0xffff60 + o) v).channels = t.channels ∧
      (Timers.write t (0xffff60 + o) v).space = t.space ∧
      (o ≠ 0 → (Timers.write t (0xffff60 + o) v).tstr = t.tstr) ∧
      (o ≠ 1 → (Timers.write t (0xffff60 + o) v).tsnc = t.tsnc) ∧
      (o ≠ 2 → (Timers.write t (0xffff60 + o) v).tmdr = t.tmdr) ∧
      (o ≠ 3 → (Timers.write t (0xffff60 + o) v).tfcr = t.tfcr) := by
  interval_cases o <;> simp [Timers.write]

/-- A write at an offset that belongs to no channel and is not a global byte goes to the
scratch array. -/
theorem Timers.write_scratch (t : Timers) (off v : Nat) (h4 : 4 ≤ off) (hoff : off < 64)
    (hsel : Timers.selectChannel off = (none, off)) :
    Timers.write t (0xffff60 + off) v =
      { t with space := fun k => if k = off then v else t.space k } := by
  have n0 : ¬ (0xffff60 + off < 0xffff60 ∨ 0xffff60 + off ≥ 0xffffa0) := by omega
  have e : 0xffff60 + off - 0xffff60 = off := by omega
  have m0 : off ≠ 0 := by omega
  have m1 : off ≠ 1 := by omega
  have m2 : off ≠ 2 := by omega
  have m3 : off ≠ 3 := by omega
  simp only [Timers.write, n0, if_false, e, m0, m1, m2, m3, hsel]

/-- A read at an offset that belongs to no channel and is not a global byte comes from the
scratch array. -/
theorem Timers.read_scratch (u : Timers) (off : Nat) (h4 : 4 ≤ off) (hoff : off < 64)
    (hsel : Timers.selectChannel off = (none, off)) :
    (Timers.read u (0xffff60 + off)).1 = u.space off := by
  have n0 : ¬ (0xffff60 + off < 0xffff60 ∨ 0xffff60 + off ≥ 0xffffa0) := by omega
  have e : 0xffff60 + off - 0xffff60 = off := by omega
  have m0 : off ≠ 0 := by omega
  have m1 : off ≠ 1 := by omega
  have m2 : off ≠ 2 := by omega
  have m3 : off ≠ 3 := by omega
  simp only [Timers.read, n0, if_false, e, m0, m1, m2, m3, hsel]

/-- Two block offsets of two channels meet at the same window offset only if they are the
same offset of the same channel. -/
theorem Timers.blockBase_inj (i j x y : Nat) (hi : i < 5) (hj : j < 5) (hx : x < 10)
    (hy : y < 10) (h : Timers.blockBase i + x = Timers.blockBase j + y) : i = j ∧ x = y := by
  interval_cases i <;> interval_cases j <;> simp [Timers.blockBase] at h ⊢ <;> omega

/-- C18: timer registers are independent byte cells.  For every two distinct window offsets
`oa`, `ob` below 64 and every byte `v`, a read at `0xFFFF60 + ob` after a write of `v` at
`0xFFFF60 + oa` returns what it returned before the write.  Moreover the write leaves every
channel that does not own `oa` as it was, and leaves the four global bytes as they were
unless `oa` is one of them. -/
theorem C18_independent_cells (t : Timers) (oa ob v : Nat) (ha : oa < 64) (hb : ob < 64)
    (hne : oa ≠ ob) (hv : v < 256) :
    (Timers.read (Timers.write t (0xffff60 + oa) v) (0xffff60 + ob)).1
        = (Timers.read t (0xffff60 + ob)).1 ∧
      (∀ j, (oa < 4 ∨ (Timers.selectChannel oa).1 ≠ some j) →
        (Timers.write t (0xffff60 + oa) v).channels j = t.channels j) ∧
      (4 ≤ oa →
        (Timers.write t (0xffff60 + oa) v).tstr = t.tstr ∧
          (Timers.write t (0xffff60 + oa) v).tsnc = t.tsnc ∧
          (Timers.write t (0xffff60 + oa) v).tmdr = t.tmdr ∧
          (Timers.write t (0xffff60 + oa) v).tfcr = t.tfcr) := by
  by_cases ha4 : oa < 4
  · -- the write goes to a global byte
    obtain ⟨g1, g2, g3, g4, g5, g6⟩ := Timers.write_global t oa v ha4
    refine ⟨?_, fun j _ => by rw [g1], fun h => absurd ha4 (by omega)⟩
    by_cases hb4 : ob < 4
    · rw [Timers.read_global _ ob hb4, Timers.read_global t ob hb4]
      interval_cases ob
      · simp only [if_true]; exact g3 hne
      · simp only [one_ne_zero, if_false, if_true]; exact g4 hne
      · simp only [OfNat.ofNat_ne_zero, OfNat.ofNat_ne_one, if_false, if_true]; exact g5 hne
      · simp only [OfNat.ofNat_ne_zero, OfNat.ofNat_ne_one, Nat.reduceEqDiff, if_false]
        exact g6 hne
    · rcases Timers.offset_cases ob (by omega) hb with ⟨j, y, hj, hy, rfl⟩ | ⟨_, hsel⟩
      · rw [← Nat.add_assoc, Timers.read_block _ j y hj hy, Timers.read_block t j y hj hy,
          g1]
      · rw [Timers.read_scratch _ ob (by omega) hb hsel,
          Timers.read_scratch t ob (by omega) hb hsel, g2]
  · rcases Timers.offset_cases oa (by omega) ha with ⟨i, x, hi, hx, rfl⟩ | ⟨_, hselA⟩
    · -- the write goes to block offset `x` of channel `i`
      have hw := Timers.write_block t i x v hi hx
      rw [← Nat.add_assoc, hw]
      have hselI := Timers.selectChannel_block i x hi hx
      refine ⟨?_, fun j hj => ?_, fun _ => ⟨rfl, rfl, rfl, rfl⟩⟩
      · by_cases hb4 : ob < 4
        · rw [Timers.read_global _ ob hb4, Timers.read_global t ob hb4]
        · rcases Timers.offset_cases ob (by omega) hb with ⟨j, y, hj, hy, rfl⟩ | ⟨_, hsel⟩
          · rw [← Nat.add_assoc, Timers.read_block _ j y hj hy,
              Timers.read_block t j y hj hy]
            by_cases hji : j = i
            · subst hji
              have hxy : x ≠ y := fun h => hne (by rw [h])
              simp only [if_true]
              exact Timers.readChannel_writeChannel_ne (t.channels j) x y v hy hxy hv
            · simp only [hji, if_false]
          · rw [Timers.read_scratch _ ob (by omega) hb hsel,
              Timers.read_scratch t ob (by omega) hb hsel]
      · have hji : j ≠ i := by
          rcases hj with h | h
          · exact absurd h ha4
          · rw [hselI] at h
            intro e
            exact h (by rw [e])
        simp only [hji, if_false]
    · -- the write goes to the scratch array
      have hw := Timers.write_scratch t oa v (by omega) ha hselA
      rw [hw]
      refine ⟨?_, fun j _ => rfl, fun _ => ⟨rfl, rfl, rfl, rfl⟩⟩
      by_cases hb4 : ob < 4
      · rw [Timers.read_global _ ob hb4, Timers.read_global t ob hb4]
      · rcases Timers.offset_cases ob (by omega) hb with ⟨j, y, hj, hy, rfl⟩ | ⟨_, hsel⟩
        · rw [← Nat.add_assoc, Timers.read_block _ j y hj hy, Timers.read_block t j y hj hy]
        · rw [Timers.read_scratch _ ob (by omega) hb hsel,
            Timers.read_scratch t ob (by omega) hb hsel]
          have : ob ≠ oa := fun h => hne h.symm
          simp only [this, if_false]

/-- Witness of C18: a write of `0x12` to the counter high byte of channel 0 (`0xFFFF68`)
leaves the counter low byte (`0xFFFF69`) as it was. -/
theorem C18_independent_cells_witness :
    (Timers.read (Timers.write exWrap (0xffff60 + 8) 0x12) (0xffff60 + 9)).1
      = (Timers.read exWrap (0xffff60 + 9)).1 :=
  (C18_independent_cells exWrap 8 9 0x12 (by decide) (by decide) (by decide) (by decide)).1

end H8S
